import Mathlib

/-!
# pfs command-line front end: argument parser and dispatcher

A shallow embedding of `opt.c`, `opt.h` and the parts of `main.c` that decide
the properties below, followed by the theorems about them.

Conventions of the embedding:

* a C string is the list of its characters before the terminating NUL;
* `uint32_t` values are naturals, reduced modulo `2^32` where the source
  computes with them;
* `int` values are integers;
* output written to a stream is returned as a string;
* the archive library behind `pfs.h` is not part of these sources: its
  functions and return codes are parameters of the definitions that call them.
-/

namespace Pfs

/-! ## opt.h -/

/-- Record of `OptArg`: a bare token and the bit of the option it is bound to. -/
structure OptArg where
  str : List Char
  bit : Int
  deriving DecidableEq, Repr

/-- Record of `Opt`. `args` is the allocated block behind the `args` pointer, one
cell per `OptArg` slot, so its length is the allocated capacity; `[]` stands
for `NULL`, and a cell that was never stored to is `none`. -/
structure Opt where
  flags : Nat
  count : Nat
  args : List (Option OptArg)
  deriving DecidableEq, Repr

/-- Record of `OptHandler`. A handler table is the list of its entries before
the entry whose name is `NULL`. -/
structure OptHandler where
  name : List Char
  bit : Int
  deriving DecidableEq, Repr

def OPT_LIST : Int := 0
def OPT_HUMAN : Int := 1
def OPT_SIZES : Int := 2
def OPT_EXTRACT : Int := 3
def OPT_OUTPUT : Int := 4
def OPT_INSERT : Int := 5
def OPT_REMOVE : Int := 6
def OPT_CREATE : Int := 7
def OPT_WRITE : Int := 8
def OPT_HELP : Int := 9

/-- Macro `opt_flag(opt, bit)`: `((opt)->flags & (1 << (bit))) != 0`. -/
def opt_flag (flags : Nat) (bit : Int) : Bool :=
  (flags &&& ((1 <<< bit.toNat) % 2 ^ 32)) != 0

/-! ## opt.c -/

/-- Macro `opt_is_pow2_or_zero(n)`: `(n == 0) || ((n & (n - 1)) == 0)`. -/
def opt_is_pow2_or_zero (n : Nat) : Bool :=
  n == 0 || (n &&& (n - 1)) == 0

/-- What a step of the parser leaves behind: the return code (`0` to go on),
the `Opt` record, the variable `prevBit` and the text written to `stderr`. -/
structure HandleOut where
  rc : Int
  opt : Opt
  prevBit : Int
  err : String
  deriving DecidableEq, Repr

/-- The diagnostic of `opt_handle`:
`"Error: unknown option '%s%s'\n", (arg[1] == 0) ? "-" : "--", arg`.
For a one-character `arg` the byte `arg[1]` is the terminator. For the empty
`arg` (the token `--`) the source reads the byte after the terminator, which
is outside the string; the embedding takes it to be non-zero there. -/
def unknown_option (arg : List Char) : String :=
  "Error: unknown option '" ++ (if arg.length = 1 then "-" else "--") ++ String.mk arg ++ "'\n"

/-- Function `opt_handle`: look `arg` up in the table; on a match record the bit in
`prevBit` and in the flags, otherwise print the diagnostic and return 1. -/
def opt_handle (opt : Opt) (handlers : List OptHandler) (arg : List Char) (prevBit : Int) :
    HandleOut :=
  match handlers with
  | [] => ⟨1, opt, prevBit, unknown_option arg⟩
  | h :: hs =>
    if arg = h.name then
      ⟨0, { opt with flags := opt.flags ||| ((1 <<< h.bit.toNat) % 2 ^ 32) }, h.bit, ""⟩
    else
      opt_handle opt hs arg prevBit

/-- The inner loop of `opt_process` over the characters after a single dash:
each one is looked up as a one-character name, stopping at the first failure. -/
def opt_short (handlers : List OptHandler) (opt : Opt) (prevBit : Int) :
    List Char → HandleOut
  | [] => ⟨0, opt, prevBit, ""⟩
  | c :: cs =>
    let r := opt_handle opt handlers [c] prevBit
    if r.rc ≠ 0 then r else opt_short handlers r.opt r.prevBit cs

/-- Library call `realloc(block, sizeof(OptArg) * cap)`, when it succeeds: the cells
kept are those below the smaller of the two sizes, new cells are unset. -/
def realloc (block : List (Option OptArg)) (cap : Nat) : List (Option OptArg) :=
  block.take cap ++ List.replicate (cap - block.length) none

/-- What `opt_process` leaves behind: its return value, the `Opt` record, the
text written to `stderr`, and `oob`, which is set when the store
`opt->args[opt->count] = ...` fell outside the allocated block (the run is
cut there: the behaviour of the source is undefined from that point). -/
structure OptOut where
  rc : Int
  opt : Opt
  err : String
  oob : Bool
  deriving DecidableEq, Repr

/-- The "Arguments" part of the body of the loop of `opt_process`: grow the
block when the count is zero or a power of two, then store the record at
index `count` and increment the count. `realloc_ok cap` tells whether the
`realloc` to `cap` cells succeeds. -/
def opt_append (realloc_ok : Nat → Bool) (opt : Opt) (arg : List Char) (prevBit : Int) :
    OptOut :=
  let grown : Option Opt :=
    if opt_is_pow2_or_zero opt.count then
      let cap := if opt.count = 0 then 1 else (opt.count * 2) % 2 ^ 32
      if realloc_ok cap then some { opt with args := realloc opt.args cap } else none
    else some opt
  match grown with
  | none => ⟨1, opt, "Error: out of memory while processing arguments\n", false⟩
  | some o =>
    if o.count < o.args.length then
      ⟨0, { o with args := o.args.set o.count (some ⟨arg, prevBit⟩),
                   count := (o.count + 1) % 2 ^ 32 }, "", false⟩
    else
      ⟨0, o, "", true⟩

/-- The loop of `opt_process` over `argv[i], argv[i+1], ...`; an entry `none` is a
null pointer. -/
def opt_loop (handlers : List OptHandler) (realloc_ok : Nat → Bool) :
    List (Option (List Char)) → Opt → Int → OptOut
  | [], opt, _ => ⟨0, opt, "", false⟩
  | none :: _, opt, _ => ⟨0, opt, "", false⟩
  | some arg :: rest, opt, prevBit =>
    if arg[0]? = some '-' then
      if arg[1]? = some '-' then
        let r := opt_handle opt handlers (arg.drop 2) prevBit
        if r.rc ≠ 0 then ⟨r.rc, r.opt, r.err, false⟩
        else opt_loop handlers realloc_ok rest r.opt r.prevBit
      else
        let r := opt_short handlers opt prevBit (arg.drop 1)
        if r.rc ≠ 0 then ⟨r.rc, r.opt, r.err, false⟩
        else opt_loop handlers realloc_ok rest r.opt r.prevBit
    else if prevBit = -1 then
      opt_loop handlers realloc_ok rest opt prevBit
    else
      let r := opt_append realloc_ok opt arg prevBit
      if r.rc ≠ 0 ∨ r.oob = true then r
      else opt_loop handlers realloc_ok rest r.opt prevBit

/-- Function `opt_process`: `argv` has `argc` entries; the record is zeroed and the
entries from index 1 on are scanned with `prevBit = -1`. -/
def opt_process (handlers : List OptHandler) (realloc_ok : Nat → Bool)
    (argv : List (Option (List Char))) : OptOut :=
  opt_loop handlers realloc_ok (argv.drop 1) ⟨0, 0, []⟩ (-1)

/-- The handler table `optHandlers` of `main`. -/
def optHandlers : List OptHandler :=
  [ ⟨"l".toList, OPT_LIST⟩, ⟨"list".toList, OPT_LIST⟩,
    ⟨"s".toList, OPT_SIZES⟩, ⟨"sizes".toList, OPT_SIZES⟩,
    ⟨"h".toList, OPT_HUMAN⟩, ⟨"human".toList, OPT_HUMAN⟩,
    ⟨"e".toList, OPT_EXTRACT⟩, ⟨"extract".toList, OPT_EXTRACT⟩,
    ⟨"o".toList, OPT_OUTPUT⟩, ⟨"output".toList, OPT_OUTPUT⟩,
    ⟨"r".toList, OPT_REMOVE⟩, ⟨"remove".toList, OPT_REMOVE⟩,
    ⟨"i".toList, OPT_INSERT⟩, ⟨"insert".toList, OPT_INSERT⟩,
    ⟨"w".toList, OPT_WRITE⟩, ⟨"write".toList, OPT_WRITE⟩,
    ⟨"c".toList, OPT_CREATE⟩, ⟨"create".toList, OPT_CREATE⟩,
    ⟨"help".toList, OPT_HELP⟩ ]

/-- A command line as the list of its non-null `argv` entries. -/
def cmdline (toks : List String) : List (Option (List Char)) :=
  toks.map fun s => some s.toList

/-! ## main.c: size formatting and path names -/

/-- Conversion `%Nu` of `printf`: the decimal digits of `n`, padded on the left with
blanks to at least `width` characters. -/
def fmt_u (width n : Nat) : String :=
  String.mk (List.replicate (width - (Nat.repr n).length) ' ') ++ Nat.repr n

/-- The loop `while (bytes >= 1024)` of `print_bytes_human`: returns the final
`bytes`, `rem` and `i`. -/
def human_loop (bytes rem i : Nat) : Nat × Nat × Nat :=
  if 1024 ≤ bytes then human_loop (bytes / 1024) (bytes % 1024) (i + 1)
  else (bytes, rem, i)
termination_by bytes
decreasing_by exact Nat.div_lt_self (by omega) (by omega)

/-- The `switch (i)` of `print_bytes_human` that picks the unit. -/
def human_units (i : Nat) : String :=
  match i with
  | 1 => "KiB"
  | 2 => "MiB"
  | 3 => "GiB"
  | _ => "TiB"

/-- Function `print_bytes_human`: the text it writes to `stdout`. The parameter is a
`uint32_t`, so the argument is reduced modulo `2^32` on entry. -/
def print_bytes_human (bytes : Nat) : String :=
  let r := human_loop (bytes % 2 ^ 32) 0 0
  if r.2.2 = 0 then
    fmt_u 6 r.1 ++ " B   "
  else
    fmt_u 4 r.1 ++ "." ++ fmt_u 1 ((r.2.1 * 10) % 2 ^ 32 / 1024) ++ " " ++ human_units r.2.2 ++ " "

/-- The loop of `filename_from_path`: `name` is the current candidate and the list
is what lies between `path` and `end`. -/
def filename_loop (name : List Char) : List Char → List Char
  | [] => name
  | c :: rest => if c = '/' ∨ c = '\\' then filename_loop rest rest else filename_loop name rest

/-- Function `filename_from_path`: the part of `path` the returned pointer points to. -/
def filename_from_path (path : List Char) : List Char :=
  filename_loop path path

/-! ## main.c: the insert mode

The archive library and the C library are outside these sources. `Env P`
gathers what `pfs_insert` uses of them, for an archive handle of type `P`. -/

/-- The return codes of `pfs.h`, in the order `main.c` names them. -/
structure Codes where
  PFS_OK : Int
  PFS_NOT_FOUND : Int
  PFS_OUT_OF_MEMORY : Int
  PFS_FILE_ERROR : Int
  PFS_CORRUPTED : Int
  PFS_COMPRESSION_ERROR : Int

/-- The environment of the insert mode. `fopen_rb path` is the content of the
file at `path`, or `none` when `fopen(path, "rb")` fails; `malloc_ok len` and
`fread_ok path` tell whether the allocation and the read succeed;
`pfs_insert_file` and `pfs_write_to_disk` are the two library calls, the first
returning its code and the archive it leaves behind. -/
structure Env (P : Type) where
  codes : Codes
  fopen_rb : List Char → Option (List Nat)
  malloc_ok : Nat → Bool
  fread_ok : List Char → Bool
  pfs_insert_file : P → List Char → List Nat → Int × P
  pfs_write_to_disk : P → List Char → Int

/-- What the insert mode can change: the archive in memory, the paths passed to
`fopen` so far, the archives written to disk so far (path and content, one
entry per successful `pfs_write_to_disk`), and the two output streams. -/
structure World (P : Type) where
  pfs : P
  opened : List (List Char)
  saved : List (List Char × P)
  out : String
  err : String

/-- Function `open_error`: the text it writes to `stderr`. -/
def open_error (c : Codes) (rc : Int) (path : List Char) : String :=
  "Error: " ++
    (if rc = c.PFS_NOT_FOUND then "no file found at '" ++ String.mk path ++ "'\n"
     else if rc = c.PFS_OUT_OF_MEMORY then "out of memory while opening '" ++ String.mk path ++ "'\n"
     else if rc = c.PFS_FILE_ERROR then "read operation failed for '" ++ String.mk path ++ "'\n"
     else if rc = c.PFS_CORRUPTED then "file is not a valid PFS archive: '" ++ String.mk path ++ "'\n"
     else if rc = c.PFS_COMPRESSION_ERROR then
       "decompression failure while reading '" ++ String.mk path ++ "'\n"
     else "unknown failure code\n")

/-- Function `pfs_save_error`: the text it writes to `stderr`. -/
def pfs_save_error (c : Codes) (rc : Int) (path : List Char) : String :=
  "Error: " ++
    (if rc = c.PFS_OUT_OF_MEMORY then "out of memory while writing '" ++ String.mk path ++ "'\n"
     else if rc = c.PFS_FILE_ERROR then
       "write operation failed for file '" ++ String.mk path ++ "'\n"
     else if rc = c.PFS_COMPRESSION_ERROR then
       "compression failure while writing '" ++ String.mk path ++ "'\n"
     else "unknown error code\n")

/-- Function `pfs_save`. -/
def pfs_save {P : Type} (env : Env P) (w : World P) (path : List Char) : Int × World P :=
  let rc := env.pfs_write_to_disk w.pfs path
  if rc ≠ 0 then
    (rc, { w with err := w.err ++ pfs_save_error env.codes rc path })
  else
    (env.codes.PFS_OK,
      { w with saved := w.saved ++ [(path, w.pfs)],
               out := w.out ++ "Saved '" ++ String.mk path ++ "'\n" })

/-- Function `pfs_insert_impl`. -/
def pfs_insert_impl {P : Type} (env : Env P) (w : World P) (name : List Char)
    (data : List Nat) : Int × World P :=
  let r := env.pfs_insert_file w.pfs name data
  let w1 := { w with pfs := r.2 }
  if r.1 = env.codes.PFS_OK then
    (r.1, { w1 with out := w1.out ++ "Inserting '" ++ String.mk name ++ "'\n" })
  else if r.1 = env.codes.PFS_OUT_OF_MEMORY then
    (r.1, { w1 with err := w1.err ++ "Error: out of memory while inserting '"
                              ++ String.mk name ++ "'\n" })
  else if r.1 = env.codes.PFS_COMPRESSION_ERROR then
    (r.1, { w1 with err := w1.err ++ "Error: compression failed while inserting '"
                              ++ String.mk name ++ "'\n" })
  else
    (r.1, { w1 with err := w1.err ++ "Error: unknown error code\n" })

/-- Function `pfs_insert_single`: open and read the file, then insert it under the
last segment of its path. The length is the file size as a `uint32_t`. -/
def pfs_insert_single {P : Type} (env : Env P) (w : World P) (filepath : List Char) :
    Int × World P :=
  let c := env.codes
  let w0 := { w with opened := w.opened ++ [filepath] }
  match env.fopen_rb filepath with
  | none =>
    (c.PFS_NOT_FOUND, { w0 with err := w0.err ++ open_error c c.PFS_NOT_FOUND filepath })
  | some content =>
    let len := content.length % 2 ^ 32
    if len = 0 then (c.PFS_FILE_ERROR, w0)
    else if env.malloc_ok len = false then
      (c.PFS_OUT_OF_MEMORY,
        { w0 with err := w0.err ++ open_error c c.PFS_OUT_OF_MEMORY filepath })
    else if env.fread_ok filepath = false then
      (c.PFS_FILE_ERROR, { w0 with err := w0.err ++ open_error c c.PFS_FILE_ERROR filepath })
    else
      pfs_insert_impl env w0 (filename_from_path filepath) (content.take len)

/-- The loop of `pfs_insert` and its final `return`: `cells` is the block from
`&opt->args[i]` on, `todo` is `opt->count - i`, `count` the local counter.
The result is `none` when the loop reads a cell outside the block or one that
was never stored to. -/
def pfs_insert_loop {P : Type} (env : Env P) (path : List Char) :
    Nat → List (Option OptArg) → World P → Nat → Option (Int × World P)
  | 0, _, w, count => some (if count ≠ 0 then pfs_save env w path else (env.codes.PFS_OK, w))
  | _ + 1, [], _, _ => none
  | _ + 1, none :: _, _, _ => none
  | todo + 1, some arg :: cells, w, count =>
    if arg.bit = OPT_INSERT then
      let r := pfs_insert_single env w arg.str
      if r.1 ≠ 0 then some r
      else pfs_insert_loop env path todo cells r.2 (count + 1)
    else pfs_insert_loop env path todo cells w count

/-- Function `pfs_insert`. -/
def pfs_insert {P : Type} (env : Env P) (w : World P) (opt : Opt) (path : List Char) :
    Option (Int × World P) :=
  pfs_insert_loop env path opt.count opt.args w 0

/-! ## main.c: the dispatcher -/

/-- The calls `main` makes after parsing, with the arguments that matter here. -/
inductive Call where
  | usage
  | pfs_create (opt : Opt)
  | pfs_open (path : List Char)
  | open_error (rc : Int) (path : List Char)
  | pfs_list (opt : Opt)
  | pfs_extract (opt : Opt) (path : List Char)
  | pfs_output (opt : Opt) (path : List Char)
  | pfs_remove (opt : Opt) (path : List Char)
  | pfs_insert (opt : Opt) (path : List Char)
  | pfs_write (opt : Opt) (path : List Char)
  | pfs_default_info (path : List Char)
  | pfs_close
  | opt_free (opt : Opt)
  deriving DecidableEq, Repr

def EXIT_SUCCESS : Int := 0
def EXIT_FAILURE : Int := 1

/-- The body of `main` from the test of `OPT_HELP` on: the return value and the
calls made, in order. `ext c` is the value the call `c` returns. -/
def dispatch (ext : Call → Int) (argv : List (List Char)) (opt : Opt) : Int × List Call :=
  if opt_flag opt.flags OPT_HELP then
    (0, [.usage, .opt_free opt])
  else if opt_flag opt.flags OPT_CREATE then
    (ext (.pfs_create opt), [.pfs_create opt, .opt_free opt])
  else
    let path := argv.getLast?.getD []
    let opt := { opt with count := (opt.count + 2 ^ 32 - 1) % 2 ^ 32 }
    let rc := ext (.pfs_open path)
    if rc ≠ 0 then
      (EXIT_FAILURE, [.pfs_open path, .open_error rc path, .opt_free opt])
    else if opt_flag opt.flags OPT_LIST then
      (rc, [.pfs_open path, .pfs_list opt, .pfs_close, .opt_free opt])
    else if opt_flag opt.flags OPT_EXTRACT then
      (ext (.pfs_extract opt path),
        [.pfs_open path, .pfs_extract opt path, .pfs_close, .opt_free opt])
    else if opt_flag opt.flags OPT_OUTPUT then
      (ext (.pfs_output opt path),
        [.pfs_open path, .pfs_output opt path, .pfs_close, .opt_free opt])
    else if opt_flag opt.flags OPT_REMOVE then
      (ext (.pfs_remove opt path),
        [.pfs_open path, .pfs_remove opt path, .pfs_close, .opt_free opt])
    else if opt_flag opt.flags OPT_INSERT then
      (ext (.pfs_insert opt path),
        [.pfs_open path, .pfs_insert opt path, .pfs_close, .opt_free opt])
    else if opt_flag opt.flags OPT_WRITE then
      (ext (.pfs_write opt path),
        [.pfs_open path, .pfs_write opt path, .pfs_close, .opt_free opt])
    else
      (rc, [.pfs_open path, .pfs_default_info path, .pfs_close, .opt_free opt])

/-- Function `main`: `argv` has `argc` entries, none of them null. -/
def main (realloc_ok : Nat → Bool) (ext : Call → Int) (argv : List (List Char)) :
    Int × List Call :=
  if argv.length < 2 then (EXIT_SUCCESS, [.usage])
  else
    let r := opt_process optHandlers realloc_ok (argv.map some)
    if r.rc ≠ 0 then (EXIT_FAILURE, [])
    else dispatch ext argv r.opt

/-! ## The dispatcher in the words of the specification -/

/-- The modes of the dispatcher. -/
inductive Mode where
  | help | create | list | extract | output | remove | insert | write_stdin | default_info
  deriving DecidableEq, Repr

/-- The modes that have a flag, in priority order, each with its flag. -/
def mode_priority : List (Mode × Int) :=
  [ (.help, OPT_HELP), (.create, OPT_CREATE), (.list, OPT_LIST), (.extract, OPT_EXTRACT),
    (.output, OPT_OUTPUT), (.remove, OPT_REMOVE), (.insert, OPT_INSERT),
    (.write_stdin, OPT_WRITE) ]

/-- The first mode in priority order whose flag is set, `default_info` when none is. -/
def select_mode (flags : Nat) : Mode :=
  match mode_priority.find? fun m => opt_flag flags m.2 with
  | some m => m.1
  | none => .default_info

/-- The mode whose operation a call of `main` is, for the calls that are one. -/
def Call.mode : Call → Option Mode
  | .usage => some .help
  | .pfs_create _ => some .create
  | .pfs_list _ => some .list
  | .pfs_extract _ _ => some .extract
  | .pfs_output _ _ => some .output
  | .pfs_remove _ _ => some .remove
  | .pfs_insert _ _ => some .insert
  | .pfs_write _ _ => some .write_stdin
  | .pfs_default_info _ => some .default_info
  | _ => none

/-- The modes that work on an opened archive. -/
def Mode.needs_archive : Mode → Bool
  | .help => false
  | .create => false
  | _ => true

/-! ## The record sequence in the words of the specification -/

/-- The flag a name is mapped to by the handler table, if it is in the table. -/
def lookup (handlers : List OptHandler) (name : List Char) : Option Int :=
  (handlers.find? fun h => decide (name = h.name)).map OptHandler.bit

/-- The flags of the recognized options a token names, left to right: the one
long name after `--`, or each character after a single `-`; none for a bare
token. -/
def recognized (handlers : List OptHandler) (tok : List Char) : List Int :=
  if tok[0]? = some '-' then
    if tok[1]? = some '-' then (lookup handlers (tok.drop 2)).toList
    else (tok.drop 1).filterMap fun c => lookup handlers [c]
  else []

/-- The flag of the most recently recognized option among the tokens `before`. -/
def last_flag (handlers : List OptHandler) (before : List (List Char)) : Option Int :=
  (before.map (recognized handlers)).flatten.getLast?

/-- The records the specification describes for the tokens `toks` that follow
the tokens `before`: one record per bare token preceded by a recognized
option, carrying the flag of the most recent one. -/
def spec_records_from (handlers : List OptHandler) (before : List (List Char)) :
    List (List Char) → List OptArg
  | [] => []
  | tok :: rest =>
    (if tok[0]? = some '-' then []
     else match last_flag handlers before with
       | some b => [⟨tok, b⟩]
       | none => []) ++ spec_records_from handlers (before ++ [tok]) rest

/-- The records the specification describes for a whole token vector. -/
def spec_records (handlers : List OptHandler) (toks : List (List Char)) : List OptArg :=
  spec_records_from handlers [] toks

/-- The allocated block is large enough for the records and its capacity is
zero or a power of two. -/
def CapInv (opt : Opt) : Prop :=
  opt.count ≤ opt.args.length ∧ (opt.args.length = 0 ∨ ∃ k, opt.args.length = 2 ^ k)

/-- The flag held by `prevBit`, where `-1` stands for "no option seen yet". -/
def toFlag (prevBit : Int) : Option Int :=
  if prevBit = -1 then none else some prevBit

/-- The variable `prevBit` holds the flag of the most recently recognized option of
`before`, or `-1` when there is none. -/
def Tracks (handlers : List OptHandler) (before : List (List Char)) (prevBit : Int) : Prop :=
  last_flag handlers before = toFlag prevBit

/-- Every entry of the table maps its name to a flag, that is to a bit index of
the 32-bit flag set (for any other value `1 << bit` is undefined in C). -/
def FlagTable (handlers : List OptHandler) : Prop :=
  ∀ e ∈ handlers, 0 ≤ e.bit ∧ e.bit < 32

instance (handlers : List OptHandler) : Decidable (FlagTable handlers) := by
  unfold FlagTable; infer_instance

/-- A sample command line: `pfs x -le a b -i c d.pfs`. -/
def sample_argv : List (List Char) :=
  ["pfs".toList, "x".toList, "-le".toList, "a".toList, "b".toList, "-i".toList,
   "c".toList, "d.pfs".toList]

/-- The return codes numbered in the order `main.c` names them; the values of
`pfs.h` are not part of these sources, and only `PFS_OK = 0` matters below. -/
def sample_codes : Codes :=
  ⟨0, 1, 2, 3, 4, 5⟩

/-- A sample environment: the archive is the list of its entries, inserting
appends an entry and always succeeds, writing to disk always succeeds; the
files `a` and `c` exist and hold one byte each, every other path is missing. -/
def sample_env : Env (List (List Char × List Nat)) where
  codes := sample_codes
  fopen_rb := fun p =>
    if p = ['a'] then some [1] else if p = ['c'] then some [3] else none
  malloc_ok := fun _ => true
  fread_ok := fun _ => true
  pfs_insert_file := fun pfs name data => (0, pfs ++ [(name, data)])
  pfs_write_to_disk := fun _ _ => 0

/-- The empty archive, nothing opened, nothing saved, nothing printed. -/
def sample_world : World (List (List Char × List Nat)) :=
  ⟨[], [], [], "", ""⟩

/-- The parsed form of `pfs -i a b c x.pfs` after the decrement of `main`: three
records bound to the insert flag, in a block of four cells. -/
def sample_insert_opt : Opt :=
  ⟨32, 3, [some ⟨['a'], OPT_INSERT⟩, some ⟨['b'], OPT_INSERT⟩, some ⟨['c'], OPT_INSERT⟩,
    some ⟨"x.pfs".toList, OPT_INSERT⟩]⟩

/-! ## main.c: the write mode -/

/-- One call `fread(data + len, sizeof(uint8_t), 1024, stdin)`: the items it
delivers, at most the 1024 it was asked for, and what `feof(stdin)` answers
after it. -/
structure Fread where
  bytes : List Nat
  eof : Bool
  le : bytes.length ≤ 1024

/-- Library call `realloc(data, cap)` on a byte buffer, when it succeeds: the cells
kept are those below the smaller of the two sizes, new cells are unset. -/
def realloc_bytes (block : List (Option Nat)) (cap : Nat) : List (Option Nat) :=
  block.take cap ++ List.replicate (cap - block.length) none

/-- How the loop of `pfs_write_file` is left: by `break` at the end of the
stream, by one of its two error returns, or, for a read that stores outside
the allocated buffer, not at all (the behaviour is undefined from there). -/
inductive WriteExit where
  | eof | out_of_memory | read_failure | overrun
  deriving DecidableEq, Repr

/-- The variables of `pfs_write_file` when its loop is left: the buffer behind `data`
(one cell per byte, its length the allocated size, `[]` for `NULL`), `cap`
and `len`, and the values `(len, cap)` found immediately before each call
of `fread`, oldest first. -/
structure WriteLoopOut where
  exit : WriteExit
  data : List (Option Nat)
  cap : Nat
  len : Nat
  trace : List (Nat × Nat)
  deriving DecidableEq, Repr

/-- One pass through the body of the loop of `pfs_write_file`: either the loop
is left, or it goes on with new `data`, `cap`, `len` and trace. -/
inductive WriteIter where
  | stop (out : WriteLoopOut)
  | next (data : List (Option Nat)) (cap len : Nat) (trace : List (Nat × Nat))

/-- The second half of the body of the loop of `pfs_write_file`, from the call
of `fread` on: store what the read `r` delivers at `data + len`, add its
length to `len`, and leave the loop on a short read. The pair `(len, cap)`
found before the call is appended to the trace. -/
def pfs_write_read (r : Fread) (data : List (Option Nat)) (cap len : Nat)
    (trace : List (Nat × Nat)) : WriteIter :=
  let trace1 := trace ++ [(len, cap)]
  if len + r.bytes.length ≤ data.length then
    let data2 := data.take len ++ r.bytes.map some ++ data.drop (len + r.bytes.length)
    let len2 := (len + r.bytes.length) % 2 ^ 32
    if r.bytes.length < 1024 then
      if r.eof then .stop ⟨.eof, data2, cap, len2, trace1⟩
      else .stop ⟨.read_failure, [], cap, len2, trace1⟩
    else .next data2 cap len2 trace1
  else
    .stop ⟨.overrun, data, cap, len, trace1⟩

/-- The body of the loop of `pfs_write_file` for the read `r`: when
`len + 1024 > cap`, double `cap` and reallocate, returning on failure; then
read. `realloc_ok cap` tells whether the `realloc` to `cap` bytes succeeds. -/
@[irreducible]
def pfs_write_iter (realloc_ok : Nat → Bool) (r : Fread) (data : List (Option Nat))
    (cap len : Nat) (trace : List (Nat × Nat)) : WriteIter :=
  if (len + 1024) % 2 ^ 32 > cap then
    let cap1 := (cap * 2) % 2 ^ 32
    if realloc_ok cap1 then pfs_write_read r (realloc_bytes data cap1) cap1 len trace
    else .stop ⟨.out_of_memory, [], cap1, len, trace⟩
  else pfs_write_read r data cap len trace

/-- The loop `for (;;)` of `pfs_write_file` over what the successive calls of
`fread` deliver; once the list is used up the stream has ended: the next call
delivers nothing and `feof` holds. -/
def pfs_write_loop (realloc_ok : Nat → Bool) :
    List Fread → List (Option Nat) → Nat → Nat → List (Nat × Nat) → WriteLoopOut
  | [], data, cap, len, trace =>
    match pfs_write_iter realloc_ok ⟨[], true, Nat.zero_le _⟩ data cap len trace with
    | .stop out => out
    | .next data1 cap1 len1 trace1 => ⟨.eof, data1, cap1, len1, trace1⟩
  | r :: rest, data, cap, len, trace =>
    match pfs_write_iter realloc_ok r data cap len trace with
    | .stop out => out
    | .next data1 cap1 len1 trace1 => pfs_write_loop realloc_ok rest data1 cap1 len1 trace1

/-- The bytes held by a run of cells, when each of them was stored to. -/
def cells_bytes : List (Option Nat) → Option (List Nat)
  | [] => some []
  | none :: _ => none
  | some b :: cells => (cells_bytes cells).map (b :: ·)

/-- Function `pfs_write_file`: read the standard input into the buffer, then insert
the first `len` bytes under `name` and save. The result is `none` when a
read stored outside the buffer or the bytes handed over were never stored. -/
def pfs_write_file {P : Type} (env : Env P) (realloc_ok : Nat → Bool) (reads : List Fread)
    (w : World P) (name path : List Char) : Option (Int × World P) :=
  let out := pfs_write_loop realloc_ok reads [] 512 0 []
  match out.exit with
  | .overrun => none
  | .out_of_memory =>
    some (env.codes.PFS_OUT_OF_MEMORY,
      { w with err := w.err ++ "Error: out of memory while reading form stdin\n" })
  | .read_failure =>
    some (env.codes.PFS_FILE_ERROR,
      { w with err := w.err ++ "Error: failure while reading from stdin\n" })
  | .eof =>
    if out.data = [] then some (0, w)
    else if out.len > 0 then
      match cells_bytes (out.data.take out.len) with
      | none => none
      | some bytes =>
        let r := pfs_insert_impl env w name bytes
        if r.1 = env.codes.PFS_OK then some (pfs_save env r.2 path) else some r
    else some (0, w)

/-! ## The write mode in the words of the specification -/

/-- The chunks read from the stream, in order: every chunk up to and including
the first short one. -/
def chunks_read : List Fread → List (List Nat)
  | [] => []
  | r :: rest => r.bytes :: (if r.bytes.length < 1024 then [] else chunks_read rest)

/-- The number of calls of `fread` made on a stream: one per chunk up to and
including the first short one, the read that finds the stream ended counted
as one. -/
def reads_made : List Fread → Nat
  | [] => 1
  | r :: rest => if r.bytes.length < 1024 then 1 else 1 + reads_made rest

/-- A full chunk: 1024 times the byte `b`. -/
def full_chunk (b : Nat) : Fread :=
  ⟨List.replicate 1024 b, false, le_of_eq (List.length_replicate ..)⟩

/-- A sample stream: three full chunks, then five bytes and the end of the
stream. -/
def sample_reads : List Fread :=
  [full_chunk 1, full_chunk 2, full_chunk 3, ⟨[4, 5, 6, 7, 8], true, by decide⟩]

/-- The state of the loop of `pfs_write_file` at the top of its body, `acc`
being the bytes read so far: they are the first `len` bytes of the buffer,
one doubling of `cap` is enough for the headroom, and a buffer that already
has the headroom has the size `cap`. -/
def WriteInv (data : List (Option Nat)) (cap len : Nat) (acc : List Nat) : Prop :=
  len = acc.length ∧ data.take len = acc.map some ∧ len + 1024 ≤ 2 * cap ∧
    (len + 1024 ≤ cap → data.length = cap)

/-- What the read half of the loop body does for the read `r` when the buffer
has the headroom, `acc` being the bytes read before: it leaves the loop at
the end of the stream with `acc` and the chunk in the buffer, or leaves it
with a read failure, or goes on with the invariant restored. -/
def ReadOutcome (r : Fread) (cap len : Nat) (trace : List (Nat × Nat)) (acc : List Nat)
    (it : WriteIter) : Prop :=
  (r.bytes.length < 1024 ∧ r.eof = true ∧
    ∃ data2, it = .stop ⟨.eof, data2, cap, len + r.bytes.length, trace ++ [(len, cap)]⟩ ∧
      data2.take (len + r.bytes.length) = (acc ++ r.bytes).map some) ∨
  (r.bytes.length < 1024 ∧ r.eof = false ∧
    it = .stop ⟨.read_failure, [], cap, len + r.bytes.length, trace ++ [(len, cap)]⟩) ∨
  (r.bytes.length = 1024 ∧
    ∃ data2, it = .next data2 cap (len + 1024) (trace ++ [(len, cap)]) ∧
      WriteInv data2 cap (len + 1024) (acc ++ r.bytes))

/-! ## The insert mode in the words of the specification -/

/-- The values bound to the insert flag among the records, in command-line
order. -/
def insert_paths (recs : List OptArg) : List (List Char) :=
  (recs.filter fun a => decide (a.bit = OPT_INSERT)).map OptArg.str

/-- Going through the paths in order, each insertion made on the world the one
before left: the result of the first insertion that fails, `none` when every
insertion succeeds. -/
def first_failure {P : Type} (env : Env P) : World P → List (List Char) →
    Option (Int × World P)
  | _, [] => none
  | w, p :: ps =>
    if (pfs_insert_single env w p).1 ≠ 0 then some (pfs_insert_single env w p)
    else first_failure env (pfs_insert_single env w p).2 ps

/-- The world after inserting every path in order. -/
def insert_all {P : Type} (env : Env P) : World P → List (List Char) → World P
  | w, [] => w
  | w, p :: ps => insert_all env (pfs_insert_single env w p).2 ps

/-! ## Theorems -/

theorem and_pred_two_mul (m : Nat) (hm : m ≠ 0) :
    (2 * m) &&& (2 * m - 1) = 2 * (m &&& (m - 1)) := by
  have h1 : 2 * m = Nat.bit false m := by simp [Nat.bit]
  have h2 : 2 * m - 1 = Nat.bit true (m - 1) := by simp [Nat.bit]; omega
  rw [h2, h1, Nat.land_bit]
  simp [Nat.bit]

theorem and_pred_two_mul_succ (m : Nat) :
    (2 * m + 1) &&& (2 * m + 1 - 1) = 2 * m := by
  have h1 : 2 * m + 1 = Nat.bit true m := by simp [Nat.bit]
  have h2 : 2 * m + 1 - 1 = Nat.bit false m := by simp [Nat.bit]
  rw [h2, h1, Nat.land_bit]
  simp [Nat.bit]

theorem and_pred_eq_zero_iff (n : Nat) (hn : n ≠ 0) :
    n &&& (n - 1) = 0 ↔ ∃ k, n = 2 ^ k := by
  constructor
  · induction n using Nat.strong_induction_on with
    | _ n ih =>
      intro h
      rcases Nat.even_or_odd' n with ⟨m, rfl | rfl⟩
      · have hm : m ≠ 0 := by omega
        rw [and_pred_two_mul m hm] at h
        have h2 : m &&& (m - 1) = 0 := by omega
        obtain ⟨k, hk⟩ := ih m (by omega) hm h2
        exact ⟨k + 1, by rw [hk, pow_succ]; ring⟩
      · rw [and_pred_two_mul_succ] at h
        exact ⟨0, by simp; omega⟩
  · rintro ⟨k, rfl⟩
    rw [Nat.and_pow_two_sub_one_eq_mod]
    simp

theorem opt_is_pow2_or_zero_iff (n : Nat) :
    opt_is_pow2_or_zero n = true ↔ n = 0 ∨ ∃ k, n = 2 ^ k := by
  unfold opt_is_pow2_or_zero
  by_cases hn : n = 0
  · simp [hn]
  · simp [hn, and_pred_eq_zero_iff n hn]

theorem realloc_length (block : List (Option OptArg)) (cap : Nat) :
    (realloc block cap).length = cap := by
  simp [realloc]; omega

theorem realloc_take (block : List (Option OptArg)) (cap n : Nat)
    (h1 : n ≤ block.length) (h2 : n ≤ cap) :
    (realloc block cap).take n = block.take n := by
  unfold realloc
  rw [List.take_append_of_le_length (by simp; omega), List.take_take]
  congr 1; omega

theorem take_succ_set (l : List (Option OptArg)) (n : Nat) (x : Option OptArg)
    (h : n < l.length) : (l.set n x).take (n + 1) = l.take n ++ [x] := by
  induction l generalizing n with
  | nil => simp at h
  | cons a l ih =>
    cases n with
    | zero => simp
    | succ n => simp at h; simp [ih n h]

theorem opt_append_spec (realloc_ok : Nat → Bool) (opt : Opt) (arg : List Char)
    (prevBit : Int) (hc : CapInv opt) (hlt : opt.count < 2 ^ 31) :
    (opt_append realloc_ok opt arg prevBit).oob = false ∧
    ((opt_append realloc_ok opt arg prevBit).rc = 0 →
      CapInv (opt_append realloc_ok opt arg prevBit).opt ∧
      (opt_append realloc_ok opt arg prevBit).opt.count = opt.count + 1 ∧
      (opt_append realloc_ok opt arg prevBit).opt.flags = opt.flags ∧
      (opt_append realloc_ok opt arg prevBit).opt.args.take (opt.count + 1)
        = opt.args.take opt.count ++ [some ⟨arg, prevBit⟩]) ∧
    ((opt_append realloc_ok opt arg prevBit).rc ≠ 0 →
      (opt_append realloc_ok opt arg prevBit).opt = opt) := by
  obtain ⟨hle, hpow⟩ := hc
  have hmod : (opt.count + 1) % 2 ^ 32 = opt.count + 1 := Nat.mod_eq_of_lt (by omega)
  unfold opt_append
  by_cases ht : opt_is_pow2_or_zero opt.count = true
  · simp only [ht, if_true]
    by_cases hr : realloc_ok (if opt.count = 0 then 1 else (opt.count * 2) % 2 ^ 32) = true
    · simp only [hr, if_true]
      have hcap : opt.count < (if opt.count = 0 then 1 else (opt.count * 2) % 2 ^ 32) := by
        split <;> omega
      simp only [realloc_length, hcap, if_true, hmod]
      refine ⟨trivial, fun _ => ⟨⟨?_, ?_⟩, trivial, trivial, ?_⟩, fun h => absurd rfl h⟩
      · simp only [List.length_set, realloc_length]; omega
      · right
        simp only [List.length_set, realloc_length]
        by_cases h0 : opt.count = 0
        · exact ⟨0, by simp [h0]⟩
        · rcases (opt_is_pow2_or_zero_iff _).1 ht with h | ⟨k, hk⟩
          · exact absurd h h0
          · refine ⟨k + 1, ?_⟩
            simp only [h0, if_false]
            rw [Nat.mod_eq_of_lt (by omega), hk, pow_succ]
      · rw [take_succ_set _ _ _ (by rw [realloc_length]; exact hcap),
          realloc_take _ _ _ hle (by omega)]
    · rw [if_neg hr]
      simp
  · rw [if_neg ht]
    have hlt2 : opt.count < opt.args.length := by
      rcases hpow with h | ⟨k, hk⟩
      · exfalso; apply ht; rw [opt_is_pow2_or_zero_iff]; left; omega
      · rcases Nat.lt_or_ge opt.count opt.args.length with h | h
        · exact h
        · exfalso; apply ht; rw [opt_is_pow2_or_zero_iff]; right; exact ⟨k, by omega⟩
    simp only [hlt2, if_true, hmod]
    refine ⟨by simp, fun _ => ⟨⟨?_, ?_⟩, by simp, by simp, ?_⟩, fun h => absurd rfl h⟩
    · simp only [List.length_set]; omega
    · simpa using hpow
    · exact take_succ_set _ _ _ hlt2

theorem lookup_mem (handlers : List OptHandler) (name : List Char) (b : Int)
    (h : lookup handlers name = some b) : ∃ e ∈ handlers, e.bit = b := by
  unfold lookup at h
  rcases hf : handlers.find? (fun e => decide (name = e.name)) with _ | e
  · simp [hf] at h
  · rw [hf] at h
    exact ⟨e, List.mem_of_find?_eq_some hf, by simpa using h⟩

theorem opt_handle_eq (opt : Opt) (handlers : List OptHandler) (arg : List Char)
    (prevBit : Int) :
    opt_handle opt handlers arg prevBit =
      match lookup handlers arg with
      | some b => ⟨0, { opt with flags := opt.flags ||| ((1 <<< b.toNat) % 2 ^ 32) }, b, ""⟩
      | none => ⟨1, opt, prevBit, unknown_option arg⟩ := by
  induction handlers with
  | nil => simp [opt_handle, lookup]
  | cons e es ih =>
    unfold opt_handle
    by_cases he : arg = e.name
    · simp [he, lookup]
    · rw [if_neg he, ih]
      simp [lookup, List.find?, he]

theorem opt_handle_ok (opt : Opt) (handlers : List OptHandler) (arg : List Char)
    (prevBit : Int) (h : (opt_handle opt handlers arg prevBit).rc = 0) :
    lookup handlers arg = some (opt_handle opt handlers arg prevBit).prevBit ∧
    (opt_handle opt handlers arg prevBit).opt.count = opt.count ∧
    (opt_handle opt handlers arg prevBit).opt.args = opt.args := by
  rw [opt_handle_eq] at h ⊢
  rcases hl : lookup handlers arg with _ | b
  · simp [hl] at h
  · simp

theorem toFlag_of_nonneg (b : Int) (h : 0 ≤ b) : toFlag b = some b := by
  unfold toFlag
  rw [if_neg (by omega)]

theorem opt_short_ok (handlers : List OptHandler) (hv : ∀ e ∈ handlers, 0 ≤ e.bit)
    (cs : List Char) : ∀ (opt : Opt) (prevBit : Int),
    (opt_short handlers opt prevBit cs).rc = 0 →
    toFlag (opt_short handlers opt prevBit cs).prevBit
      = (cs.filterMap fun c => lookup handlers [c]).getLast?.or (toFlag prevBit) ∧
    (opt_short handlers opt prevBit cs).opt.count = opt.count ∧
    (opt_short handlers opt prevBit cs).opt.args = opt.args := by
  induction cs with
  | nil => intro opt prevBit _; simp [opt_short]
  | cons c cs ih =>
    intro opt prevBit h
    unfold opt_short at h ⊢
    simp only [] at h ⊢
    by_cases h1 : (opt_handle opt handlers [c] prevBit).rc = 0
    · rw [if_neg (by simpa using h1)] at h ⊢
      obtain ⟨hl, hc, ha⟩ := opt_handle_ok _ _ _ _ h1
      obtain ⟨i1, i2, i3⟩ := ih _ _ h
      refine ⟨?_, by rw [i2, hc], by rw [i3, ha]⟩
      rw [i1]
      obtain ⟨e, he, hb⟩ := lookup_mem _ _ _ hl
      rw [toFlag_of_nonneg _ (hb ▸ hv e he)]
      simp only [List.filterMap_cons, hl]
      rw [List.getLast?_cons]
      cases (List.filterMap (fun c => lookup handlers [c]) cs).getLast? <;> simp
    · rw [if_pos h1] at h
      exact absurd h h1

theorem last_flag_append (handlers : List OptHandler) (before : List (List Char))
    (tok : List Char) :
    last_flag handlers (before ++ [tok])
      = (recognized handlers tok).getLast?.or (last_flag handlers before) := by
  simp [last_flag]

theorem opt_loop_records (handlers : List OptHandler) (realloc_ok : Nat → Bool)
    (hv : ∀ e ∈ handlers, 0 ≤ e.bit) (toks : List (List Char)) :
    ∀ (before : List (List Char)) (opt : Opt) (prevBit : Int),
    CapInv opt → opt.count + toks.length < 2 ^ 31 → Tracks handlers before prevBit →
    (opt_loop handlers realloc_ok (toks.map some) opt prevBit).rc = 0 →
    (opt_loop handlers realloc_ok (toks.map some) opt prevBit).oob = false ∧
    (opt_loop handlers realloc_ok (toks.map some) opt prevBit).opt.count
      = opt.count + (spec_records_from handlers before toks).length ∧
    (opt_loop handlers realloc_ok (toks.map some) opt prevBit).opt.args.take
        (opt_loop handlers realloc_ok (toks.map some) opt prevBit).opt.count
      = opt.args.take opt.count ++ (spec_records_from handlers before toks).map some := by
  induction toks with
  | nil => intro before opt prevBit _ _ _ _; simp [opt_loop, spec_records_from]
  | cons tok rest ih =>
    intro before opt prevBit hc hlen ht hok
    simp only [List.map_cons, List.length_cons] at hok hlen ⊢
    unfold opt_loop at hok ⊢
    unfold spec_records_from
    by_cases hd : tok[0]? = some '-'
    · simp only [hd, if_true] at hok ⊢
      by_cases hdd : tok[1]? = some '-'
      · simp only [hdd, if_true] at hok ⊢
        by_cases h1 : (opt_handle opt handlers (tok.drop 2) prevBit).rc = 0
        · rw [if_neg (by simpa using h1)] at hok ⊢
          obtain ⟨hl, hcnt, hargs⟩ := opt_handle_ok _ _ _ _ h1
          obtain ⟨e, he, hb⟩ := lookup_mem _ _ _ hl
          have ht2 : Tracks handlers (before ++ [tok])
              (opt_handle opt handlers (tok.drop 2) prevBit).prevBit := by
            unfold Tracks
            rw [last_flag_append, toFlag_of_nonneg _ (hb ▸ hv e he)]
            simp [recognized, hd, hdd, hl]
          have hc2 : CapInv (opt_handle opt handlers (tok.drop 2) prevBit).opt := by
            unfold CapInv; rw [hcnt, hargs]; exact hc
          obtain ⟨i1, i2, i3⟩ := ih _ _ _ hc2 (by rw [hcnt]; omega) ht2 hok
          refine ⟨i1, ?_, ?_⟩
          · rw [i2, hcnt]; simp
          · rw [i3, hcnt, hargs]; simp
        · rw [if_pos (by simpa using h1)] at hok
          exact absurd hok h1
      · simp only [hdd, if_false] at hok ⊢
        by_cases h1 : (opt_short handlers opt prevBit (tok.drop 1)).rc = 0
        · rw [if_neg (by simpa using h1)] at hok ⊢
          obtain ⟨hf, hcnt, hargs⟩ := opt_short_ok handlers hv _ _ _ h1
          have ht2 : Tracks handlers (before ++ [tok])
              (opt_short handlers opt prevBit (tok.drop 1)).prevBit := by
            unfold Tracks
            rw [last_flag_append, hf, ht]
            simp [recognized, hd, hdd]
          have hc2 : CapInv (opt_short handlers opt prevBit (tok.drop 1)).opt := by
            unfold CapInv; rw [hcnt, hargs]; exact hc
          obtain ⟨i1, i2, i3⟩ := ih _ _ _ hc2 (by rw [hcnt]; omega) ht2 hok
          refine ⟨i1, ?_, ?_⟩
          · rw [i2, hcnt]; simp
          · rw [i3, hcnt, hargs]; simp
        · rw [if_pos (by simpa using h1)] at hok
          exact absurd hok h1
    · simp only [hd, if_false] at hok ⊢
      have ht2 : Tracks handlers (before ++ [tok]) prevBit := by
        unfold Tracks
        rw [last_flag_append, ht]
        simp [recognized, hd]
      by_cases hp : prevBit = -1
      · simp only [hp, if_true] at hok ⊢
        have hnone : last_flag handlers before = none := by
          rw [ht, hp]; rfl
        obtain ⟨i1, i2, i3⟩ := ih _ _ _ hc (by omega) (hp ▸ ht2) hok
        refine ⟨i1, ?_, ?_⟩
        · rw [i2, hnone]; simp
        · rw [i3, hnone]; simp
      · rw [if_neg hp] at hok ⊢
        have hsome : last_flag handlers before = some prevBit := by
          rw [ht]; unfold toFlag; rw [if_neg hp]
        obtain ⟨a1, a2, a3⟩ := opt_append_spec realloc_ok opt tok prevBit hc (by omega)
        by_cases h1 : (opt_append realloc_ok opt tok prevBit).rc = 0
        · rw [if_neg (by simp [h1, a1])] at hok ⊢
          obtain ⟨b1, b2, _, b4⟩ := a2 h1
          obtain ⟨i1, i2, i3⟩ := ih _ _ _ b1 (by rw [b2]; omega) ht2 hok
          refine ⟨i1, ?_, ?_⟩
          · rw [i2, b2, hsome]; simp; omega
          · rw [i3, b2, b4, hsome]; simp
        · rw [if_pos (Or.inl h1)] at hok
          exact absurd hok h1

theorem opt_handle_args (opt : Opt) (handlers : List OptHandler) (arg : List Char)
    (prevBit : Int) :
    (opt_handle opt handlers arg prevBit).opt.count = opt.count ∧
    (opt_handle opt handlers arg prevBit).opt.args = opt.args := by
  rw [opt_handle_eq]
  cases lookup handlers arg <;> simp

theorem opt_short_args (handlers : List OptHandler) (cs : List Char) :
    ∀ (opt : Opt) (prevBit : Int),
    (opt_short handlers opt prevBit cs).opt.count = opt.count ∧
    (opt_short handlers opt prevBit cs).opt.args = opt.args := by
  induction cs with
  | nil => intro opt prevBit; simp [opt_short]
  | cons c cs ih =>
    intro opt prevBit
    unfold opt_short
    simp only []
    obtain ⟨hc, ha⟩ := opt_handle_args opt handlers [c] prevBit
    by_cases h1 : (opt_handle opt handlers [c] prevBit).rc = 0
    · rw [if_neg (by simpa using h1)]
      obtain ⟨i1, i2⟩ := ih (opt_handle opt handlers [c] prevBit).opt
        (opt_handle opt handlers [c] prevBit).prevBit
      exact ⟨by rw [i1, hc], by rw [i2, ha]⟩
    · rw [if_pos h1]
      exact ⟨hc, ha⟩

theorem CapInv_of_eq (o1 o2 : Opt) (hc : o1.count = o2.count) (ha : o1.args = o2.args)
    (h : CapInv o2) : CapInv o1 := by
  unfold CapInv at h ⊢; rw [hc, ha]; exact h

theorem opt_loop_mono (handlers : List OptHandler) (realloc_ok : Nat → Bool)
    (toks : List (Option (List Char))) :
    ∀ (opt : Opt) (prevBit : Int), CapInv opt → opt.count + toks.length < 2 ^ 31 →
    (opt_loop handlers realloc_ok toks opt prevBit).oob = false ∧
    CapInv (opt_loop handlers realloc_ok toks opt prevBit).opt ∧
    opt.count ≤ (opt_loop handlers realloc_ok toks opt prevBit).opt.count ∧
    (opt_loop handlers realloc_ok toks opt prevBit).opt.args.take opt.count
      = opt.args.take opt.count := by
  induction toks with
  | nil => intro opt prevBit hc _; simp [opt_loop, hc]
  | cons t rest ih =>
    intro opt prevBit hc hlen
    simp only [List.length_cons] at hlen
    cases t with
    | none => simp [opt_loop, hc]
    | some tok =>
      unfold opt_loop
      by_cases hd : tok[0]? = some '-'
      · simp only [hd, if_true]
        by_cases hdd : tok[1]? = some '-'
        · simp only [hdd, if_true]
          obtain ⟨hcnt, hargs⟩ := opt_handle_args opt handlers (tok.drop 2) prevBit
          have hc2 := CapInv_of_eq _ _ hcnt hargs hc
          by_cases h1 : (opt_handle opt handlers (tok.drop 2) prevBit).rc = 0
          · rw [if_neg (by simpa using h1)]
            obtain ⟨i1, i2, i3, i4⟩ := ih _ (opt_handle opt handlers (tok.drop 2) prevBit).prevBit
              hc2 (by rw [hcnt]; omega)
            rw [hcnt, hargs] at i4; rw [hcnt] at i3
            exact ⟨i1, i2, i3, i4⟩
          · rw [if_pos (by simpa using h1)]
            exact ⟨rfl, hc2, le_of_eq hcnt.symm, by rw [hargs]⟩
        · simp only [hdd, if_false]
          obtain ⟨hcnt, hargs⟩ := opt_short_args handlers (tok.drop 1) opt prevBit
          have hc2 := CapInv_of_eq _ _ hcnt hargs hc
          by_cases h1 : (opt_short handlers opt prevBit (tok.drop 1)).rc = 0
          · rw [if_neg (by simpa using h1)]
            obtain ⟨i1, i2, i3, i4⟩ := ih _ (opt_short handlers opt prevBit (tok.drop 1)).prevBit
              hc2 (by rw [hcnt]; omega)
            rw [hcnt, hargs] at i4; rw [hcnt] at i3
            exact ⟨i1, i2, i3, i4⟩
          · rw [if_pos (by simpa using h1)]
            exact ⟨rfl, hc2, le_of_eq hcnt.symm, by rw [hargs]⟩
      · simp only [hd, if_false]
        by_cases hp : prevBit = -1
        · simp only [hp, if_true]
          exact ih _ _ hc (by omega)
        · rw [if_neg hp]
          obtain ⟨a1, a2, a3⟩ := opt_append_spec realloc_ok opt tok prevBit hc (by omega)
          by_cases h1 : (opt_append realloc_ok opt tok prevBit).rc = 0
          · rw [if_neg (by simp [h1, a1])]
            obtain ⟨b1, b2, _, b4⟩ := a2 h1
            obtain ⟨i1, i2, i3, i4⟩ := ih _ prevBit b1 (by rw [b2]; omega)
            refine ⟨i1, i2, by omega, ?_⟩
            have h5 := congrArg (List.take opt.count) i4
            rw [List.take_take, List.take_take, b2,
              Nat.min_eq_left (Nat.le_succ _)] at h5
            rw [h5]
            have h6 := congrArg (List.take opt.count) b4
            rw [List.take_take, Nat.min_eq_left (Nat.le_succ _)] at h6
            rw [h6, List.take_append_of_le_length (by simp; exact hc.1)]
            simp [List.take_take]
          · rw [if_pos (Or.inl h1)]
            rw [a3 h1]
            exact ⟨a1, hc, le_refl _, rfl⟩

theorem opt_loop_extend (handlers : List OptHandler) (realloc_ok : Nat → Bool)
    (a b : List (Option (List Char))) :
    ∀ (opt : Opt) (prevBit : Int), CapInv opt → opt.count + (a ++ b).length < 2 ^ 31 →
    (opt_loop handlers realloc_ok a opt prevBit).opt.count
      ≤ (opt_loop handlers realloc_ok (a ++ b) opt prevBit).opt.count ∧
    (opt_loop handlers realloc_ok (a ++ b) opt prevBit).opt.args.take
        (opt_loop handlers realloc_ok a opt prevBit).opt.count
      = (opt_loop handlers realloc_ok a opt prevBit).opt.args.take
        (opt_loop handlers realloc_ok a opt prevBit).opt.count := by
  induction a with
  | nil =>
    intro opt prevBit hc hlen
    obtain ⟨_, _, i3, i4⟩ := opt_loop_mono handlers realloc_ok b opt prevBit hc
      (by simpa using hlen)
    simpa [opt_loop] using ⟨i3, i4⟩
  | cons t rest ih =>
    intro opt prevBit hc hlen
    simp only [List.cons_append, List.length_cons] at hlen ⊢
    cases t with
    | none => simp [opt_loop]
    | some tok =>
      unfold opt_loop
      by_cases hd : tok[0]? = some '-'
      · simp only [hd, if_true]
        by_cases hdd : tok[1]? = some '-'
        · simp only [hdd, if_true]
          obtain ⟨hcnt, hargs⟩ := opt_handle_args opt handlers (tok.drop 2) prevBit
          have hc2 := CapInv_of_eq _ _ hcnt hargs hc
          by_cases h1 : (opt_handle opt handlers (tok.drop 2) prevBit).rc = 0
          · have hx := not_not.mpr h1
            rw [if_neg hx, if_neg hx]
            exact ih _ _ hc2 (by rw [hcnt]; omega)
          · rw [if_pos h1, if_pos h1]
            exact ⟨le_refl _, rfl⟩
        · simp only [hdd, if_false]
          obtain ⟨hcnt, hargs⟩ := opt_short_args handlers (tok.drop 1) opt prevBit
          have hc2 := CapInv_of_eq _ _ hcnt hargs hc
          by_cases h1 : (opt_short handlers opt prevBit (tok.drop 1)).rc = 0
          · have hx := not_not.mpr h1
            rw [if_neg hx, if_neg hx]
            exact ih _ _ hc2 (by rw [hcnt]; omega)
          · rw [if_pos h1, if_pos h1]
            exact ⟨le_refl _, rfl⟩
      · simp only [hd, if_false]
        by_cases hp : prevBit = -1
        · simp only [hp, if_true]
          exact ih _ _ hc (by omega)
        · rw [if_neg hp, if_neg hp]
          obtain ⟨a1, a2, a3⟩ := opt_append_spec realloc_ok opt tok prevBit hc (by omega)
          by_cases h1 : (opt_append realloc_ok opt tok prevBit).rc = 0
          · have hx : ¬ ((opt_append realloc_ok opt tok prevBit).rc ≠ 0 ∨
                (opt_append realloc_ok opt tok prevBit).oob = true) := by simp [h1, a1]
            rw [if_neg hx, if_neg hx]
            obtain ⟨b1, b2, _, _⟩ := a2 h1
            exact ih _ prevBit b1 (by rw [b2]; omega)
          · rw [if_pos (Or.inl h1), if_pos (Or.inl h1)]
            exact ⟨le_refl _, rfl⟩

theorem spec_records_from_congr (handlers : List OptHandler) (toks : List (List Char)) :
    ∀ (b1 b2 : List (List Char)), last_flag handlers b1 = last_flag handlers b2 →
    spec_records_from handlers b1 toks = spec_records_from handlers b2 toks := by
  induction toks with
  | nil => intro b1 b2 _; rfl
  | cons tok rest ih =>
    intro b1 b2 h
    unfold spec_records_from
    rw [h, ih (b1 ++ [tok]) (b2 ++ [tok]) (by rw [last_flag_append, last_flag_append, h])]

theorem last_flag_bare (handlers : List OptHandler) (pre : List (List Char))
    (hpre : ∀ t ∈ pre, t[0]? ≠ some '-') : last_flag handlers pre = none := by
  induction pre using List.reverseRecOn with
  | nil => rfl
  | append_singleton pre t ih =>
    rw [last_flag_append, ih (fun u hu => hpre u (by simp [hu]))]
    have ht : t[0]? ≠ some '-' := hpre t (by simp)
    simp [recognized, ht]

theorem spec_records_from_append_bare (handlers : List OptHandler)
    (pre post : List (List Char)) (hpre : ∀ t ∈ pre, t[0]? ≠ some '-') :
    ∀ before, last_flag handlers before = none →
    spec_records_from handlers before (pre ++ post) = spec_records_from handlers [] post := by
  induction pre with
  | nil =>
    intro before hb
    exact spec_records_from_congr handlers post before [] (by rw [hb]; rfl)
  | cons t pre ih =>
    intro before hb
    have ht : t[0]? ≠ some '-' := hpre t (by simp)
    simp only [List.cons_append]
    rw [spec_records_from, if_neg ht, hb]
    simp only [List.nil_append]
    apply ih (fun u hu => hpre u (by simp [hu]))
    rw [last_flag_append, hb]
    simp [recognized, ht]

/-- C1. When `opt_process` succeeds on a command line (for a table of flags and an
`argc` that fits an `int`), no store left the block and the first `count` cells
of the block are exactly the records the specification describes for the
tokens after the program name: in command-line order, one record per bare
token preceded by a recognized option, with the flag of the most recent one.
In particular the bare tokens in front of the first option token leave no
record: the records are those of the tokens after them. -/
theorem opt_process_records (handlers : List OptHandler) (realloc_ok : Nat → Bool)
    (argv : List (List Char)) (hv : FlagTable handlers) (hargc : argv.length < 2 ^ 31)
    (hok : (opt_process handlers realloc_ok (argv.map some)).rc = 0) :
    (opt_process handlers realloc_ok (argv.map some)).oob = false ∧
    (opt_process handlers realloc_ok (argv.map some)).opt.count
      = (spec_records handlers (argv.drop 1)).length ∧
    (opt_process handlers realloc_ok (argv.map some)).opt.args.take
        (opt_process handlers realloc_ok (argv.map some)).opt.count
      = (spec_records handlers (argv.drop 1)).map some ∧
    ∀ pre post, argv.drop 1 = pre ++ post → (∀ t ∈ pre, t[0]? ≠ some '-') →
      spec_records handlers (argv.drop 1) = spec_records handlers post := by
  have hinit : CapInv ⟨0, 0, []⟩ := ⟨le_refl _, Or.inl rfl⟩
  have hlen : (0 : Nat) + (argv.drop 1).length < 2 ^ 31 := by
    simp only [List.length_drop]; omega
  unfold opt_process at hok ⊢
  rw [← List.map_drop] at hok ⊢
  obtain ⟨i1, i2, i3⟩ := opt_loop_records handlers realloc_ok (fun e he => (hv e he).1)
    (argv.drop 1) [] ⟨0, 0, []⟩ (-1) hinit hlen
    (by simp [Tracks, last_flag, toFlag]) hok
  refine ⟨i1, by simpa using i2, by simpa using i3, ?_⟩
  intro pre post hsplit hpre
  rw [hsplit]
  exact spec_records_from_append_bare handlers pre post hpre [] rfl

/-- C1, at `pfs x -le a b -i c d.pfs` with the table of `main`. -/
theorem opt_process_records_witness :
    (opt_process optHandlers (fun _ => true) (sample_argv.map some)).opt.count = 4 ∧
    spec_records optHandlers (sample_argv.drop 1)
      = [⟨"a".toList, 3⟩, ⟨"b".toList, 3⟩, ⟨"c".toList, 5⟩, ⟨"d.pfs".toList, 5⟩] ∧
    (opt_process optHandlers (fun _ => true) (sample_argv.map some)).opt.args.take
        (opt_process optHandlers (fun _ => true) (sample_argv.map some)).opt.count
      = (spec_records optHandlers (sample_argv.drop 1)).map some :=
  ⟨by decide, by decide,
    (opt_process_records optHandlers (fun _ => true) sample_argv (by decide) (by decide)
      (by decide)).2.2.1⟩

/-- C3, at `pfs --x` and `pfs -l --x -e a` with the table of `main`: the parser
fails at the unknown option and the later tokens are not processed (the
extract flag, bit 3, stays unset), but the diagnostic names the long option
`--x` with a single dash, as `-x`. -/
theorem unknown_long_option_one_char :
    opt_process optHandlers (fun _ => true) (cmdline ["pfs", "--x"])
      = ⟨1, ⟨0, 0, []⟩, "Error: unknown option '-x'\n", false⟩ ∧
    opt_process optHandlers (fun _ => true) (cmdline ["pfs", "-l", "--x", "-e", "a"])
      = ⟨1, ⟨1, 0, []⟩, "Error: unknown option '-x'\n", false⟩ ∧
    opt_process optHandlers (fun _ => true) (cmdline ["pfs", "--xy"])
      = ⟨1, ⟨0, 0, []⟩, "Error: unknown option '--xy'\n", false⟩ ∧
    opt_process optHandlers (fun _ => true) (cmdline ["pfs", "-z"])
      = ⟨1, ⟨0, 0, []⟩, "Error: unknown option '-z'\n", false⟩ := by
  decide

/-- C4. Whatever the flags, the calls of `main` that are a mode's operation are
at most one, and it is the operation of the first mode in the order help,
create, list, extract, output, remove, insert, write-stdin whose flag is set,
or of default-info when none is: that one call is made, except that nothing
is run when the selected mode needs the archive and `pfs_open` fails. -/
theorem dispatch_selects_one_mode (ext : Call → Int) (argv : List (List Char)) (opt : Opt) :
    (dispatch ext argv opt).2.filterMap Call.mode
      = if (select_mode opt.flags).needs_archive = true ∧
            ext (.pfs_open (argv.getLast?.getD [])) ≠ 0 then []
        else [select_mode opt.flags] := by
  unfold dispatch select_mode mode_priority
  simp only [List.find?]
  generalize opt_flag opt.flags OPT_HELP = b1
  generalize opt_flag opt.flags OPT_CREATE = b2
  generalize opt_flag opt.flags OPT_LIST = b3
  generalize opt_flag opt.flags OPT_EXTRACT = b4
  generalize opt_flag opt.flags OPT_OUTPUT = b5
  generalize opt_flag opt.flags OPT_REMOVE = b6
  generalize opt_flag opt.flags OPT_INSERT = b7
  generalize opt_flag opt.flags OPT_WRITE = b8
  by_cases ho : ext (.pfs_open (argv.getLast?.getD [])) = 0 <;>
  cases b1 <;> cases b2 <;> cases b3 <;> cases b4 <;> cases b5 <;> cases b6 <;>
  cases b7 <;> cases b8 <;> simp [Call.mode, Mode.needs_archive, ho]

theorem pfs_insert_impl_log {P : Type} (env : Env P) (w : World P) (name : List Char)
    (data : List Nat) :
    (pfs_insert_impl env w name data).2.saved = w.saved ∧
    (pfs_insert_impl env w name data).2.opened = w.opened := by
  unfold pfs_insert_impl
  simp only []
  split_ifs <;> exact ⟨rfl, rfl⟩

theorem pfs_insert_single_log {P : Type} (env : Env P) (w : World P) (filepath : List Char) :
    (pfs_insert_single env w filepath).2.saved = w.saved ∧
    (pfs_insert_single env w filepath).2.opened = w.opened ++ [filepath] := by
  unfold pfs_insert_single
  simp only []
  split
  · exact ⟨rfl, rfl⟩
  · split_ifs
    · exact ⟨rfl, rfl⟩
    · exact ⟨rfl, rfl⟩
    · exact ⟨rfl, rfl⟩
    · exact pfs_insert_impl_log env _ _ _

theorem pfs_insert_impl_res {P : Type} (env : Env P) (w : World P) (name : List Char)
    (data : List Nat) :
    (pfs_insert_impl env w name data).1 = (env.pfs_insert_file w.pfs name data).1 ∧
    (pfs_insert_impl env w name data).2.pfs = (env.pfs_insert_file w.pfs name data).2 := by
  unfold pfs_insert_impl
  simp only []
  split_ifs <;> exact ⟨rfl, rfl⟩

theorem pfs_insert_single_pfs {P : Type} (env : Env P) (w : World P) (p : List Char) :
    (pfs_insert_single env w p).2.pfs = w.pfs ∨
    ∃ content, env.fopen_rb p = some content ∧
      env.pfs_insert_file w.pfs (filename_from_path p)
          (content.take (content.length % 2 ^ 32))
        = ((pfs_insert_single env w p).1, (pfs_insert_single env w p).2.pfs) := by
  rcases hf : env.fopen_rb p with _ | content
  · left
    simp only [pfs_insert_single, hf]
  · simp only [pfs_insert_single, hf]
    split_ifs
    · exact Or.inl rfl
    · exact Or.inl rfl
    · exact Or.inl rfl
    · right
      refine ⟨content, rfl, ?_⟩
      obtain ⟨e1, e2⟩ := pfs_insert_impl_res env { w with opened := w.opened ++ [p] }
        (filename_from_path p) (content.take (content.length % 2 ^ 32))
      rw [e1, e2]

theorem pfs_insert_single_ok {P : Type} (env : Env P) (w : World P) (p : List Char)
    (hcodes : env.codes.PFS_NOT_FOUND ≠ 0 ∧ env.codes.PFS_OUT_OF_MEMORY ≠ 0 ∧
      env.codes.PFS_FILE_ERROR ≠ 0)
    (h : (pfs_insert_single env w p).1 = 0) :
    ∃ content, env.fopen_rb p = some content ∧
      env.pfs_insert_file w.pfs (filename_from_path p)
          (content.take (content.length % 2 ^ 32))
        = (0, (pfs_insert_single env w p).2.pfs) := by
  rcases hf : env.fopen_rb p with _ | content
  · simp only [pfs_insert_single, hf] at h
    exact absurd h hcodes.1
  · simp only [pfs_insert_single, hf] at h ⊢
    split_ifs at h ⊢
    · exact absurd h hcodes.2.2
    · exact absurd h hcodes.2.1
    · exact absurd h hcodes.2.2
    · refine ⟨content, rfl, ?_⟩
      obtain ⟨e1, e2⟩ := pfs_insert_impl_res env { w with opened := w.opened ++ [p] }
        (filename_from_path p) (content.take (content.length % 2 ^ 32))
      rw [e1] at h
      rw [e2, ← h]

theorem pfs_insert_loop_eq {P : Type} (env : Env P) (path : List Char) (recs : List OptArg) :
    ∀ (tail : List (Option OptArg)) (w : World P) (n : Nat),
    pfs_insert_loop env path recs.length (recs.map some ++ tail) w n
      = match first_failure env w (insert_paths recs) with
        | some r => some r
        | none =>
          some (if n + (insert_paths recs).length ≠ 0 then
              pfs_save env (insert_all env w (insert_paths recs)) path
            else (env.codes.PFS_OK, insert_all env w (insert_paths recs))) := by
  induction recs with
  | nil => intro tail w n; simp [pfs_insert_loop, insert_paths, first_failure, insert_all]
  | cons a recs ih =>
    intro tail w n
    simp only [List.length_cons, List.map_cons, List.cons_append, pfs_insert_loop]
    by_cases hb : a.bit = OPT_INSERT
    · have hp : insert_paths (a :: recs) = a.str :: insert_paths recs := by
        simp [insert_paths, hb]
      rw [if_pos hb, hp]
      simp only [first_failure, insert_all]
      by_cases hr : (pfs_insert_single env w a.str).1 = 0
      · rw [if_neg (not_not.mpr hr), if_neg (not_not.mpr hr)]
        refine (ih tail _ (n + 1)).trans ?_
        simp only [List.length_cons]
        rw [show n + 1 + (insert_paths recs).length = n + ((insert_paths recs).length + 1) by
          omega]
      · rw [if_pos hr, if_pos hr]
    · have hp : insert_paths (a :: recs) = insert_paths recs := by
        simp [insert_paths, hb]
      rw [if_neg hb, hp]
      exact ih tail w n

theorem first_failure_some {P : Type} (env : Env P) (paths : List (List Char)) :
    ∀ (w : World P) (r : Int × World P), first_failure env w paths = some r →
    r.1 ≠ 0 ∧ r.2.saved = w.saved ∧
      ∃ k, k < paths.length ∧ r.2.opened = w.opened ++ paths.take (k + 1) := by
  induction paths with
  | nil => intro w r h; simp [first_failure] at h
  | cons p ps ih =>
    intro w r h
    simp only [first_failure] at h
    by_cases hr : (pfs_insert_single env w p).1 = 0
    · rw [if_neg (not_not.mpr hr)] at h
      obtain ⟨i1, i2, k, hk, i3⟩ := ih _ r h
      refine ⟨i1, by rw [i2, (pfs_insert_single_log env w p).1], k + 1, by simpa using hk, ?_⟩
      rw [i3, (pfs_insert_single_log env w p).2]
      simp
    · rw [if_pos hr] at h
      obtain rfl := Option.some.inj h
      exact ⟨hr, (pfs_insert_single_log env w p).1, 0, by simp,
        by rw [(pfs_insert_single_log env w p).2]; simp⟩

theorem first_failure_none {P : Type} (env : Env P) (paths : List (List Char)) :
    ∀ (w : World P), first_failure env w paths = none →
    (insert_all env w paths).saved = w.saved ∧
    (insert_all env w paths).opened = w.opened ++ paths := by
  induction paths with
  | nil => intro w _; simp [insert_all]
  | cons p ps ih =>
    intro w h
    simp only [first_failure] at h
    by_cases hr : (pfs_insert_single env w p).1 = 0
    · rw [if_neg (not_not.mpr hr)] at h
      obtain ⟨i1, i2⟩ := ih _ h
      simp only [insert_all]
      exact ⟨by rw [i1, (pfs_insert_single_log env w p).1],
        by rw [i2, (pfs_insert_single_log env w p).2]; simp⟩
    · rw [if_pos hr] at h
      exact absurd h (by simp)

/-- C5, as amended. The error codes of `pfs.h` being non-zero, for three records
bound to the insert flag of which the first insertion succeeds and the second
fails, `pfs_insert` returns what the second `pfs_insert_single` returned and
leaves the world as that call left it. The first entry is in memory: the file
of the first path was read and the archive after the first insertion is the
one the library returned for it with code 0; the failed second insertion
either leaves that archive as it is or leaves what the library made of it.
The third path is never opened and nothing is written to disk.
In general, for any records, `pfs_insert` returns the result of the first
failing insertion, untouched by `pfs_save`, with nothing written and no later
path opened; without any value bound to the insert flag it returns `PFS_OK`
and changes nothing; and only when every insertion succeeded and one was made
does it return `pfs_save` of the world after all of them, where `pfs_save`
records the archive as written exactly when `pfs_write_to_disk` returns 0. -/
theorem pfs_insert_second_fails {P : Type} (env : Env P) (w : World P) (a1 a2 a3 : OptArg)
    (cells : List (Option OptArg)) (flags : Nat) (path : List Char)
    (hcodes : env.codes.PFS_NOT_FOUND ≠ 0 ∧ env.codes.PFS_OUT_OF_MEMORY ≠ 0 ∧
      env.codes.PFS_FILE_ERROR ≠ 0)
    (h1 : a1.bit = OPT_INSERT) (h2 : a2.bit = OPT_INSERT) (_h3 : a3.bit = OPT_INSERT)
    (hs1 : (pfs_insert_single env w a1.str).1 = 0)
    (hs2 : (pfs_insert_single env (pfs_insert_single env w a1.str).2 a2.str).1 ≠ 0) :
    pfs_insert env w ⟨flags, 3, some a1 :: some a2 :: some a3 :: cells⟩ path
      = some (pfs_insert_single env (pfs_insert_single env w a1.str).2 a2.str) ∧
    (∃ content, env.fopen_rb a1.str = some content ∧
      env.pfs_insert_file w.pfs (filename_from_path a1.str)
          (content.take (content.length % 2 ^ 32))
        = (0, (pfs_insert_single env w a1.str).2.pfs)) ∧
    ((pfs_insert_single env (pfs_insert_single env w a1.str).2 a2.str).2.pfs
        = (pfs_insert_single env w a1.str).2.pfs ∨
      ∃ content, env.fopen_rb a2.str = some content ∧
        env.pfs_insert_file (pfs_insert_single env w a1.str).2.pfs (filename_from_path a2.str)
            (content.take (content.length % 2 ^ 32))
          = ((pfs_insert_single env (pfs_insert_single env w a1.str).2 a2.str).1,
             (pfs_insert_single env (pfs_insert_single env w a1.str).2 a2.str).2.pfs)) ∧
    (pfs_insert_single env (pfs_insert_single env w a1.str).2 a2.str).2.saved = w.saved ∧
    (pfs_insert_single env (pfs_insert_single env w a1.str).2 a2.str).2.opened
      = w.opened ++ [a1.str, a2.str] ∧
    (∀ (env1 : Env P) (w1 : World P) (recs : List OptArg) (tail : List (Option OptArg))
        (fl : Nat) (path1 : List Char),
      pfs_insert env1 w1 ⟨fl, recs.length, recs.map some ++ tail⟩ path1
        = match first_failure env1 w1 (insert_paths recs) with
          | some r => some r
          | none =>
            if insert_paths recs = [] then some (env1.codes.PFS_OK, w1)
            else some (pfs_save env1 (insert_all env1 w1 (insert_paths recs)) path1)) ∧
    (∀ (env1 : Env P) (w1 : World P) (paths : List (List Char)) (r : Int × World P),
      first_failure env1 w1 paths = some r →
      r.1 ≠ 0 ∧ r.2.saved = w1.saved ∧
        ∃ k, k < paths.length ∧ r.2.opened = w1.opened ++ paths.take (k + 1)) ∧
    (∀ (env1 : Env P) (w1 : World P) (paths : List (List Char)),
      first_failure env1 w1 paths = none →
      (insert_all env1 w1 paths).saved = w1.saved ∧
      (insert_all env1 w1 paths).opened = w1.opened ++ paths) ∧
    (∀ (env1 : Env P) (w1 : World P) (path1 : List Char),
      (pfs_save env1 w1 path1).2.pfs = w1.pfs ∧
      (pfs_save env1 w1 path1).2.opened = w1.opened ∧
      (pfs_save env1 w1 path1).2.saved
        = if env1.pfs_write_to_disk w1.pfs path1 = 0 then w1.saved ++ [(path1, w1.pfs)]
          else w1.saved) := by
  refine ⟨?_, pfs_insert_single_ok env w a1.str hcodes hs1, pfs_insert_single_pfs env _ a2.str,
    ?_, ?_, ?_, fun env1 w1 paths r => first_failure_some env1 paths w1 r,
    fun env1 w1 paths => first_failure_none env1 paths w1, ?_⟩
  · unfold pfs_insert
    simp only [pfs_insert_loop, h1, h2, if_true, hs1, hs2, ne_eq, not_true_eq_false, if_false,
      not_false_eq_true]
  · rw [(pfs_insert_single_log env _ _).1, (pfs_insert_single_log env _ _).1]
  · rw [(pfs_insert_single_log env _ _).2, (pfs_insert_single_log env _ _).2]
    simp
  · intro env1 w1 recs tail fl path1
    unfold pfs_insert
    rw [pfs_insert_loop_eq]
    rcases hf : first_failure env1 w1 (insert_paths recs) with _ | r
    · simp only [Nat.zero_add]
      by_cases hp : insert_paths recs = []
      · simp [hp, insert_all]
      · have hl : (insert_paths recs).length ≠ 0 := by
          simpa using hp
        rw [if_pos hl, if_neg hp]
    · rfl
  · intro env1 w1 path1
    unfold pfs_save
    simp only []
    split_ifs <;> simp_all

/-- C5 as amended, at the sample environment: `a` is inserted, `b` is missing;
the archive in memory ends with the one entry `a`. -/
theorem pfs_insert_second_fails_witness :
    pfs_insert sample_env sample_world
        ⟨32, 3, some ⟨['a'], OPT_INSERT⟩ :: some ⟨['b'], OPT_INSERT⟩ ::
          some ⟨['c'], OPT_INSERT⟩ :: [none]⟩ "x.pfs".toList
      = some (pfs_insert_single sample_env
          (pfs_insert_single sample_env sample_world ['a']).2 ['b']) ∧
    (pfs_insert_single sample_env
        (pfs_insert_single sample_env sample_world ['a']).2 ['b']).2.pfs = [(['a'], [1])] ∧
    (pfs_insert_single sample_env
        (pfs_insert_single sample_env sample_world ['a']).2 ['b']).2.saved = [] ∧
    (pfs_insert_single sample_env
        (pfs_insert_single sample_env sample_world ['a']).2 ['b']).2.opened
      = [] ++ [['a'], ['b']] :=
  ⟨(pfs_insert_second_fails sample_env sample_world ⟨['a'], OPT_INSERT⟩ ⟨['b'], OPT_INSERT⟩
      ⟨['c'], OPT_INSERT⟩ [none] 32 "x.pfs".toList (by decide) rfl rfl rfl (by decide)
      (by decide)).1,
   by rfl,
   (pfs_insert_second_fails sample_env sample_world ⟨['a'], OPT_INSERT⟩ ⟨['b'], OPT_INSERT⟩
      ⟨['c'], OPT_INSERT⟩ [none] 32 "x.pfs".toList (by decide) rfl rfl rfl (by decide)
      (by decide)).2.2.2.1,
   (pfs_insert_second_fails sample_env sample_world ⟨['a'], OPT_INSERT⟩ ⟨['b'], OPT_INSERT⟩
      ⟨['c'], OPT_INSERT⟩ [none] 32 "x.pfs".toList (by decide) rfl rfl rfl (by decide)
      (by decide)).2.2.2.2.1⟩

/-- C5 as stated fails: inserting `a`, `b`, `c` where `b` is missing returns the
error code with the entry `a` in memory, `c` never opened, and no archive
written to disk, although one insertion succeeded. -/
theorem pfs_insert_second_fails_counterexample :
    (pfs_insert sample_env sample_world sample_insert_opt "x.pfs".toList).map
        (fun r => (r.1, r.2.pfs, r.2.opened, r.2.saved))
      = some (1, [(['a'], [1])], [['a'], ['b']], []) := by
  rfl

/-- C6, at `pfs file.pfs` and at `pfs -e`: the parser leaves no record, so the
decrement of `main` takes the 32-bit count from 0 to 4294967295. In the
first run the default-info mode does not look at the records; in the second
`pfs_extract` is called with that count over a null block. -/
theorem main_count_wraps :
    main (fun _ => true) (fun _ => 0) ["pfs".toList, "file.pfs".toList]
      = (0, [.pfs_open "file.pfs".toList, .pfs_default_info "file.pfs".toList, .pfs_close,
             .opt_free ⟨0, 4294967295, []⟩]) ∧
    main (fun _ => true) (fun _ => 0) ["pfs".toList, "-e".toList]
      = (0, [.pfs_open "-e".toList, .pfs_extract ⟨8, 4294967295, []⟩ "-e".toList, .pfs_close,
             .opt_free ⟨8, 4294967295, []⟩]) := by
  decide

theorem human_loop_lt (b r i : Nat) (h : b < 1024) : human_loop b r i = (b, r, i) := by
  rw [human_loop, if_neg (by omega)]

theorem human_loop_ge (b r i : Nat) (h : 1024 ≤ b) :
    human_loop b r i = human_loop (b / 1024) (b % 1024) (i + 1) := by
  rw [human_loop, if_pos h]

theorem human_loop_eq (n : Nat) (hn : n < 2 ^ 32) :
    human_loop n 0 0 =
      if n < 1024 then (n, 0, 0)
      else if n < 1024 ^ 2 then (n / 1024, n % 1024, 1)
      else if n < 1024 ^ 3 then (n / 1024 ^ 2, n / 1024 % 1024, 2)
      else (n / 1024 ^ 3, n / 1024 ^ 2 % 1024, 3) := by
  by_cases h1 : n < 1024
  · rw [if_pos h1, human_loop_lt _ _ _ h1]
  · rw [if_neg h1, human_loop_ge _ _ _ (by omega)]
    by_cases h2 : n < 1024 ^ 2
    · rw [if_pos h2, human_loop_lt _ _ _ (by omega)]
    · rw [if_neg h2, human_loop_ge _ _ _ (by omega)]
      by_cases h3 : n < 1024 ^ 3
      · rw [if_pos h3, human_loop_lt _ _ _ (by omega)]
        simp only [Nat.div_div_eq_div_mul]
        norm_num
      · rw [if_neg h3, human_loop_ge _ _ _ (by omega), human_loop_lt _ _ _ (by omega)]
        simp only [Nat.div_div_eq_div_mul]
        norm_num

theorem print_bytes_human_eq (n : Nat) (hn : n < 2 ^ 32) :
    print_bytes_human n =
      if n < 1024 then fmt_u 6 n ++ " B   "
      else if n < 1024 ^ 2 then
        fmt_u 4 (n / 1024) ++ "." ++ fmt_u 1 (n % 1024 * 10 / 1024) ++ " " ++ "KiB" ++ " "
      else if n < 1024 ^ 3 then
        fmt_u 4 (n / 1024 ^ 2) ++ "." ++ fmt_u 1 (n / 1024 % 1024 * 10 / 1024) ++ " " ++ "MiB"
          ++ " "
      else
        fmt_u 4 (n / 1024 ^ 3) ++ "." ++ fmt_u 1 (n / 1024 ^ 2 % 1024 * 10 / 1024) ++ " "
          ++ "GiB" ++ " " := by
  unfold print_bytes_human
  simp only [Nat.mod_eq_of_lt hn, human_loop_eq n hn]
  have hm : ∀ r : Nat, r % 1024 * 10 % 4294967296 = r % 1024 * 10 := fun r =>
    Nat.mod_eq_of_lt (by omega)
  by_cases h1 : n < 1024
  · simp only [if_pos h1]
    simp
  · by_cases h2 : n < 1024 ^ 2
    · simp only [if_neg h1, if_pos h2]
      simp [human_units, hm]
    · by_cases h3 : n < 1024 ^ 3
      · simp only [if_neg h1, if_neg h2, if_pos h3]
        simp [human_units, hm]
      · simp only [if_neg h1, if_neg h2, if_neg h3]
        simp [human_units, hm]

/-- C7. For a 32-bit byte count `n` the loop makes 0, 1, 2 or 3 divisions, and
`print_bytes_human` writes: below 1024 the count itself in the byte form
`%6u B`; from there on the quotient by 1024, 1024² or 1024³, a dot, the
tenths digit computed from the remainder of the last division, and the unit
KiB, MiB or GiB. The final quotient is below 1024 and at least 1 after a
division, the tenths digit is at most 9. In particular 0 prints in the byte
form, and 1024, 1048576 and 1073741824 print 1.0 KiB, 1.0 MiB and 1.0 GiB. -/
theorem print_bytes_human_format (n : Nat) (hn : n < 2 ^ 32) :
    print_bytes_human n =
      (if n < 1024 then fmt_u 6 n ++ " B   "
       else if n < 1024 ^ 2 then
         fmt_u 4 (n / 1024) ++ "." ++ fmt_u 1 (n % 1024 * 10 / 1024) ++ " " ++ "KiB" ++ " "
       else if n < 1024 ^ 3 then
         fmt_u 4 (n / 1024 ^ 2) ++ "." ++ fmt_u 1 (n / 1024 % 1024 * 10 / 1024) ++ " " ++ "MiB"
           ++ " "
       else
         fmt_u 4 (n / 1024 ^ 3) ++ "." ++ fmt_u 1 (n / 1024 ^ 2 % 1024 * 10 / 1024) ++ " "
           ++ "GiB" ++ " ") ∧
    (human_loop n 0 0).2.2 ≤ 3 ∧
    (human_loop n 0 0).1 = n / 1024 ^ (human_loop n 0 0).2.2 ∧
    (human_loop n 0 0).1 < 1024 ∧
    ((human_loop n 0 0).2.2 = 0 ∨ 1 ≤ (human_loop n 0 0).1) ∧
    (human_loop n 0 0).2.1 * 10 / 1024 ≤ 9 ∧
    print_bytes_human 0 = "     0 B   " ∧
    print_bytes_human 1024 = "   1.0 KiB " ∧
    print_bytes_human 1048576 = "   1.0 MiB " ∧
    print_bytes_human 1073741824 = "   1.0 GiB " := by
  refine ⟨print_bytes_human_eq n hn, ?_, ?_, ?_, ?_, ?_, ?_, ?_, ?_, ?_⟩
  · rw [human_loop_eq n hn]; split_ifs <;> simp
  · rw [human_loop_eq n hn]; split_ifs <;> simp
  · rw [human_loop_eq n hn]; split_ifs <;> dsimp only <;> omega
  · rw [human_loop_eq n hn]; split_ifs <;> dsimp only <;> omega
  · rw [human_loop_eq n hn]; split_ifs <;> dsimp only <;> omega
  · rw [print_bytes_human_eq 0 (by norm_num)]; decide
  · rw [print_bytes_human_eq 1024 (by norm_num)]; decide
  · rw [print_bytes_human_eq 1048576 (by norm_num)]; decide
  · rw [print_bytes_human_eq 1073741824 (by norm_num)]; decide

/-- C7, at 1536 bytes: one division, quotient 1, remainder 512, tenths digit 5. -/
theorem print_bytes_human_format_witness :
    print_bytes_human 1536 = "   1.5 KiB " ∧ (human_loop 1536 0 0).2.2 ≤ 3 := by
  have h := print_bytes_human_format 1536 (by norm_num)
  refine ⟨?_, h.2.1⟩
  rw [h.1]; decide

/-- C8 as stated fails at 2^40: the parameter is a `uint32_t`, the value that
reaches the function is 2^40 modulo 2^32, that is 0, and it is printed in the
byte form. -/
theorem print_bytes_human_tib_counterexample :
    print_bytes_human 1099511627776 = "     0 B   " := by
  have h : print_bytes_human 1099511627776 = print_bytes_human 0 := by
    unfold print_bytes_human; norm_num
  rw [h, print_bytes_human_eq 0 (by norm_num)]; decide

/-- C8, as amended. Whatever is passed, the 32-bit byte count needs at most 3
divisions, so the text written is the byte form or ends in one of the units
KiB, MiB, GiB, never TiB; the unit switch itself maps every count of 4 or
more divisions to TiB and knows no higher unit. -/
theorem print_bytes_human_units (n i : Nat) :
    (human_loop (n % 2 ^ 32) 0 0).2.2 ≤ 3 ∧
    human_units (i + 4) = "TiB" ∧
    (print_bytes_human n = fmt_u 6 (n % 2 ^ 32) ++ " B   " ∨
      ∃ u ∈ ["KiB", "MiB", "GiB"], ∃ q t : Nat,
        print_bytes_human n = fmt_u 4 q ++ "." ++ fmt_u 1 t ++ " " ++ u ++ " ") := by
  have hn : n % 2 ^ 32 < 2 ^ 32 := Nat.mod_lt _ (by norm_num)
  have hp : print_bytes_human n = print_bytes_human (n % 2 ^ 32) := by
    unfold print_bytes_human; rw [Nat.mod_mod]
  refine ⟨?_, rfl, ?_⟩
  · rw [human_loop_eq _ hn]; split_ifs <;> simp
  · rw [hp, print_bytes_human_eq _ hn]
    split_ifs
    · exact Or.inl rfl
    · exact Or.inr ⟨"KiB", by simp, _, _, rfl⟩
    · exact Or.inr ⟨"MiB", by simp, _, _, rfl⟩
    · exact Or.inr ⟨"GiB", by simp, _, _, rfl⟩

/-- C9. On every command line whose `argc` fits an `int`, whatever the table and
the outcome of the allocations, no store of `opt_process` falls outside the
allocated block: the capacity, which is zero or a power of two, is at least
the record count. And the records are never lost or reordered by later
appends: the records left by a command line are, cell for cell, the first
records left by any longer command line that starts with it. -/
theorem opt_process_capacity (handlers : List OptHandler) (realloc_ok : Nat → Bool)
    (argv more : List (Option (List Char))) (hargc : (argv ++ more).length < 2 ^ 31) :
    (opt_process handlers realloc_ok argv).oob = false ∧
    (opt_process handlers realloc_ok (argv ++ more)).oob = false ∧
    CapInv (opt_process handlers realloc_ok argv).opt ∧
    (opt_process handlers realloc_ok argv).opt.count
      ≤ (opt_process handlers realloc_ok (argv ++ more)).opt.count ∧
    (opt_process handlers realloc_ok (argv ++ more)).opt.args.take
        (opt_process handlers realloc_ok argv).opt.count
      = (opt_process handlers realloc_ok argv).opt.args.take
        (opt_process handlers realloc_ok argv).opt.count := by
  have hinit : CapInv ⟨0, 0, []⟩ := ⟨le_refl _, Or.inl rfl⟩
  simp only [List.length_append] at hargc
  have m1 := opt_loop_mono handlers realloc_ok (argv.drop 1) ⟨0, 0, []⟩ (-1) hinit
    (by simp only [List.length_drop]; omega)
  have m2 := opt_loop_mono handlers realloc_ok ((argv ++ more).drop 1) ⟨0, 0, []⟩ (-1) hinit
    (by simp only [List.length_drop, List.length_append]; omega)
  refine ⟨m1.1, m2.1, m1.2.1, ?_⟩
  cases argv with
  | nil => simp [opt_process, opt_loop]
  | cons p rest =>
    unfold opt_process
    simp only [List.cons_append, List.drop_succ_cons, List.drop_zero]
    exact opt_loop_extend handlers realloc_ok rest more ⟨0, 0, []⟩ (-1) hinit
      (by simp only [List.length_append, List.length_cons] at hargc ⊢; omega)

/-- C9, at `pfs -e a b c` extended by `d -i e`. -/
theorem opt_process_capacity_witness :
    (opt_process optHandlers (fun _ => true)
      (cmdline ["pfs", "-e", "a", "b", "c"] ++ cmdline ["d", "-i", "e"])).oob = false ∧
    (opt_process optHandlers (fun _ => true) (cmdline ["pfs", "-e", "a", "b", "c"])).opt
      = ⟨8, 3, [some ⟨['a'], 3⟩, some ⟨['b'], 3⟩, some ⟨['c'], 3⟩, none]⟩ ∧
    (opt_process optHandlers (fun _ => true)
      (cmdline ["pfs", "-e", "a", "b", "c"] ++ cmdline ["d", "-i", "e"])).opt.args.take
        (opt_process optHandlers (fun _ => true) (cmdline ["pfs", "-e", "a", "b", "c"])).opt.count
      = (opt_process optHandlers (fun _ => true)
          (cmdline ["pfs", "-e", "a", "b", "c"])).opt.args.take
        (opt_process optHandlers (fun _ => true) (cmdline ["pfs", "-e", "a", "b", "c"])).opt.count :=
  ⟨(opt_process_capacity optHandlers (fun _ => true) (cmdline ["pfs", "-e", "a", "b", "c"])
      (cmdline ["d", "-i", "e"]) (by decide)).2.1,
   by decide,
   (opt_process_capacity optHandlers (fun _ => true) (cmdline ["pfs", "-e", "a", "b", "c"])
      (cmdline ["d", "-i", "e"]) (by decide)).2.2.2.2⟩

theorem filename_loop_spec (rest : List Char) : ∀ (name : List Char),
    (filename_loop name rest = name ∧ ∀ c ∈ rest, c ≠ '/' ∧ c ≠ '\\') ∨
    (∃ pre, rest = pre ++ filename_loop name rest ∧
      (pre.getLast? = some '/' ∨ pre.getLast? = some '\\') ∧
      ∀ c ∈ filename_loop name rest, c ≠ '/' ∧ c ≠ '\\') := by
  induction rest with
  | nil => intro name; left; simp [filename_loop]
  | cons c rest ih =>
    intro name
    unfold filename_loop
    by_cases hc : c = '/' ∨ c = '\\'
    · rw [if_pos hc]
      right
      rcases ih rest with ⟨h1, h2⟩ | ⟨pre, h1, h2, h3⟩
      · refine ⟨[c], by rw [h1]; rfl, ?_, by rw [h1]; exact h2⟩
        rcases hc with rfl | rfl
        · left; rfl
        · right; rfl
      · refine ⟨c :: pre, by rw [List.cons_append, ← h1], ?_, h3⟩
        cases pre with
        | nil => simp at h2
        | cons d pre => simpa using h2
    · rw [if_neg hc]
      rcases ih name with ⟨h1, h2⟩ | ⟨pre, h1, h2, h3⟩
      · left
        refine ⟨h1, ?_⟩
        intro d hd
        rcases List.mem_cons.1 hd with rfl | hd
        · exact not_or.1 hc
        · exact h2 d hd
      · right
        refine ⟨c :: pre, by rw [List.cons_append, ← h1], ?_, h3⟩
        cases pre with
        | nil => simp at h2
        | cons d pre => simpa using h2

theorem filename_loop_sep (q : List Char) (c : Char) (hc : c = '/' ∨ c = '\\') :
    ∀ name, filename_loop name (q ++ [c]) = [] := by
  induction q with
  | nil => intro name; simp [filename_loop, hc]
  | cons d q ih =>
    intro name
    simp only [List.cons_append]
    unfold filename_loop
    split_ifs
    · exact ih _
    · exact ih _

/-- C10. The name `filename_from_path` returns is a suffix of the path: the path
is some prefix followed by the name, where the prefix is empty or ends in `/`
or `\`, and the name holds neither `/` nor `\`; so the name starts right
after the last separator of the path. A path without separators (here: any
path with its separators filtered out) is returned whole, and a path that
ends in a separator gives the empty name. -/
theorem filename_from_path_spec (p q : List Char) :
    (∃ pre, p = pre ++ filename_from_path p ∧
      (pre = [] ∨ pre.getLast? = some '/' ∨ pre.getLast? = some '\\')) ∧
    (∀ c ∈ filename_from_path p, c ≠ '/' ∧ c ≠ '\\') ∧
    filename_from_path (q.filter fun c => c ≠ '/' ∧ c ≠ '\\')
      = (q.filter fun c => c ≠ '/' ∧ c ≠ '\\') ∧
    filename_from_path (q ++ ['/']) = [] ∧
    filename_from_path (q ++ ['\\']) = [] := by
  refine ⟨?_, ?_, ?_, ?_, ?_⟩
  · unfold filename_from_path
    rcases filename_loop_spec p p with ⟨h1, _⟩ | ⟨pre, h1, h2, _⟩
    · exact ⟨[], by rw [h1]; rfl, Or.inl rfl⟩
    · exact ⟨pre, h1, Or.inr h2⟩
  · unfold filename_from_path
    rcases filename_loop_spec p p with ⟨h1, h2⟩ | ⟨pre, _, _, h3⟩
    · rw [h1]; exact h2
    · exact h3
  · unfold filename_from_path
    rcases filename_loop_spec (q.filter fun c => c ≠ '/' ∧ c ≠ '\\')
      (q.filter fun c => c ≠ '/' ∧ c ≠ '\\') with ⟨h1, _⟩ | ⟨pre, h1, h2, _⟩
    · exact h1
    · exfalso
      have hmem : ∀ c ∈ pre, c ≠ '/' ∧ c ≠ '\\' := by
        intro c hc
        have : c ∈ q.filter fun c => c ≠ '/' ∧ c ≠ '\\' := by
          rw [h1]; exact List.mem_append_left _ hc
        simpa using (List.mem_filter.1 this).2
      rcases h2 with h2 | h2
      · exact (hmem _ (List.mem_of_getLast?_eq_some h2)).1 rfl
      · exact (hmem _ (List.mem_of_getLast?_eq_some h2)).2 rfl
  · exact filename_loop_sep q '/' (Or.inl rfl) _
  · exact filename_loop_sep q '\\' (Or.inr rfl) _

theorem realloc_bytes_length (block : List (Option Nat)) (cap : Nat) :
    (realloc_bytes block cap).length = cap := by
  simp [realloc_bytes]; omega

theorem realloc_bytes_take (block : List (Option Nat)) (cap n : Nat)
    (h1 : n ≤ block.length) (h2 : n ≤ cap) :
    (realloc_bytes block cap).take n = block.take n := by
  unfold realloc_bytes
  rw [List.take_append_of_le_length (by simp; omega), List.take_take]
  congr 1; omega

theorem pfs_write_read_spec (r : Fread) (data : List (Option Nat)) (cap len : Nat)
    (trace : List (Nat × Nat)) (acc : List Nat) (hlen : len = acc.length)
    (htake : data.take len = acc.map some) (hsz : data.length = cap)
    (hroom : len + 1024 ≤ cap) (hb : len + 1024 ≤ 2 ^ 31) :
    ReadOutcome r cap len trace acc (pfs_write_read r data cap len trace) := by
  have hk := r.le
  have hmod : (len + r.bytes.length) % 2 ^ 32 = len + r.bytes.length :=
    Nat.mod_eq_of_lt (by omega)
  have hfit : len + r.bytes.length ≤ data.length := by omega
  have htk : (data.take len ++ r.bytes.map some ++ data.drop (len + r.bytes.length)).take
      (len + r.bytes.length) = (acc ++ r.bytes).map some := by
    rw [List.take_left' (by simp; omega), htake, List.map_append]
  have hl2 : (data.take len ++ r.bytes.map some ++ data.drop (len + r.bytes.length)).length
      = cap := by
    simp; omega
  unfold pfs_write_read ReadOutcome
  simp only [if_pos hfit, hmod]
  by_cases hs : r.bytes.length < 1024
  · rw [if_pos hs]
    by_cases he : r.eof = true
    · rw [if_pos he]
      exact Or.inl ⟨hs, he, _, rfl, htk⟩
    · rw [if_neg he]
      exact Or.inr (Or.inl ⟨hs, by simpa using he, rfl⟩)
  · rw [if_neg hs]
    have hfull : r.bytes.length = 1024 := by omega
    refine Or.inr (Or.inr ⟨hfull, _, by rw [hfull], ?_⟩)
    unfold WriteInv
    exact ⟨by rw [List.length_append]; omega, by rw [← hfull]; exact htk, by omega,
      fun _ => by rw [← hfull]; exact hl2⟩

theorem pfs_write_iter_spec (realloc_ok : Nat → Bool) (r : Fread) (data : List (Option Nat))
    (cap len : Nat) (trace : List (Nat × Nat)) (acc : List Nat)
    (hinv : WriteInv data cap len acc) (hb : len + 1024 ≤ 2 ^ 31) :
    (∃ cap1, pfs_write_iter realloc_ok r data cap len trace
      = .stop ⟨.out_of_memory, [], cap1, len, trace⟩) ∨
    ∃ cap1, len + 1024 ≤ cap1 ∧
      ReadOutcome r cap1 len trace acc (pfs_write_iter realloc_ok r data cap len trace) := by
  unfold WriteInv at hinv
  have hlen := hinv.1
  have htake := hinv.2.1
  have hdbl := hinv.2.2.1
  have hsz := hinv.2.2.2
  have hle : len ≤ data.length := by
    have h := congrArg List.length htake
    simp only [List.length_take, List.length_map] at h
    omega
  have hmod : (len + 1024) % 2 ^ 32 = len + 1024 := Nat.mod_eq_of_lt (by omega)
  unfold pfs_write_iter
  rw [hmod]
  by_cases hg : len + 1024 > cap
  · rw [if_pos hg]
    have hc : (cap * 2) % 2 ^ 32 = cap * 2 := Nat.mod_eq_of_lt (by omega)
    simp only [hc]
    by_cases hr : realloc_ok (cap * 2) = true
    · rw [if_pos hr]
      exact Or.inr ⟨cap * 2, by omega,
        pfs_write_read_spec r (realloc_bytes data (cap * 2)) (cap * 2) len trace acc hlen
          (by rw [realloc_bytes_take _ _ _ hle (by omega), htake])
          (realloc_bytes_length _ _) (by omega) hb⟩
    · rw [if_neg hr]
      exact Or.inl ⟨_, rfl⟩
  · rw [if_neg hg]
    exact Or.inr ⟨cap, by omega,
      pfs_write_read_spec r data cap len trace acc hlen htake (hsz (by omega)) (by omega) hb⟩

theorem trace_snoc_ok (trace : List (Nat × Nat)) (len cap : Nat)
    (htr : ∀ p ∈ trace, p.1 + 1024 ≤ p.2) (h : len + 1024 ≤ cap) :
    ∀ p ∈ trace ++ [(len, cap)], p.1 + 1024 ≤ p.2 := by
  intro p hp
  simp only [List.mem_append, List.mem_singleton] at hp
  rcases hp with hp | rfl
  · exact htr p hp
  · exact h

theorem pfs_write_loop_spec (realloc_ok : Nat → Bool) (reads : List Fread) :
    ∀ (data : List (Option Nat)) (cap len : Nat) (trace : List (Nat × Nat)) (acc : List Nat),
    WriteInv data cap len acc →
    len + (reads.map fun r => r.bytes.length).sum + 1024 ≤ 2 ^ 31 →
    (∀ p ∈ trace, p.1 + 1024 ≤ p.2) →
    (∀ p ∈ (pfs_write_loop realloc_ok reads data cap len trace).trace, p.1 + 1024 ≤ p.2) ∧
    (pfs_write_loop realloc_ok reads data cap len trace).exit ≠ .overrun ∧
    ((pfs_write_loop realloc_ok reads data cap len trace).exit = .eof →
      (pfs_write_loop realloc_ok reads data cap len trace).len
        = len + (chunks_read reads).flatten.length ∧
      (pfs_write_loop realloc_ok reads data cap len trace).data.take
          (pfs_write_loop realloc_ok reads data cap len trace).len
        = (acc ++ (chunks_read reads).flatten).map some ∧
      (pfs_write_loop realloc_ok reads data cap len trace).trace.length
        = trace.length + reads_made reads) := by
  induction reads with
  | nil =>
    intro data cap len trace acc hinv hb htr
    simp only [List.map_nil, List.sum_nil] at hb
    rw [pfs_write_loop]
    rcases pfs_write_iter_spec realloc_ok ⟨[], true, Nat.zero_le _⟩ data cap len trace acc
      hinv (by omega) with ⟨cap1, h⟩ | ⟨cap1, hc, h⟩
    · rw [h]
      exact ⟨htr, by simp, fun he => by simp at he⟩
    · unfold ReadOutcome at h
      rcases h with ⟨_, _, data2, h, hd⟩ | ⟨_, he, _⟩ | ⟨hf, _⟩
      · rw [h]
        refine ⟨trace_snoc_ok _ _ _ htr hc, by simp, fun _ => ⟨?_, ?_, ?_⟩⟩
        · simp [chunks_read]
        · simpa [chunks_read] using hd
        · simp [reads_made]
      · simp at he
      · simp at hf
  | cons r rest ih =>
    intro data cap len trace acc hinv hb htr
    simp only [List.map_cons, List.sum_cons] at hb
    have hk := r.le
    rw [pfs_write_loop]
    rcases pfs_write_iter_spec realloc_ok r data cap len trace acc hinv (by omega)
      with ⟨cap1, h⟩ | ⟨cap1, hc, h⟩
    · rw [h]
      exact ⟨htr, by simp, fun he => by simp at he⟩
    · unfold ReadOutcome at h
      rcases h with ⟨hs, _, data2, h, hd⟩ | ⟨_, _, h⟩ | ⟨hf, data2, h, hinv2⟩
      · rw [h]
        refine ⟨trace_snoc_ok _ _ _ htr hc, by simp, fun _ => ⟨?_, ?_, ?_⟩⟩
        · simp [chunks_read, hs]
        · simpa [chunks_read, hs] using hd
        · simp [reads_made, hs]
      · rw [h]
        exact ⟨trace_snoc_ok _ _ _ htr hc, by simp, fun he => by simp at he⟩
      · rw [h]
        have hns : ¬ r.bytes.length < 1024 := by omega
        obtain ⟨i1, i2, i3⟩ := ih data2 cap1 (len + 1024) (trace ++ [(len, cap1)])
          (acc ++ r.bytes) hinv2 (by omega) (trace_snoc_ok _ _ _ htr hc)
        refine ⟨i1, i2, fun he => ?_⟩
        obtain ⟨j1, j2, j3⟩ := i3 he
        refine ⟨?_, ?_, ?_⟩
        · rw [j1]; simp [chunks_read, hns, hf]; omega
        · rw [j2]; simp [chunks_read, hns]
        · rw [j3]; simp [reads_made, hns]; omega

theorem full_chunk_length (b : Nat) : (full_chunk b).bytes.length = 1024 :=
  List.length_replicate ..

theorem cells_bytes_map_some (l : List Nat) : cells_bytes (l.map some) = some l := by
  induction l with
  | nil => rfl
  | cons b l ih => simp [cells_bytes, ih]

theorem pfs_write_file_eof {P : Type} (env : Env P) (realloc_ok : Nat → Bool)
    (reads : List Fread) (w : World P) (name path : List Char)
    (hsize : (reads.map fun r => r.bytes.length).sum + 1024 ≤ 2 ^ 31)
    (he : (pfs_write_loop realloc_ok reads [] 512 0 []).exit = .eof)
    (hpos : 0 < (pfs_write_loop realloc_ok reads [] 512 0 []).len) :
    pfs_write_file env realloc_ok reads w name path
      = if (pfs_insert_impl env w name (chunks_read reads).flatten).1 = env.codes.PFS_OK then
          some (pfs_save env (pfs_insert_impl env w name (chunks_read reads).flatten).2 path)
        else some (pfs_insert_impl env w name (chunks_read reads).flatten) := by
  have hinit : WriteInv [] 512 0 [] := by
    unfold WriteInv
    exact ⟨rfl, rfl, by omega, fun h => by omega⟩
  obtain ⟨_, _, h3⟩ := pfs_write_loop_spec realloc_ok reads [] 512 0 [] [] hinit
    (by omega) (fun p hp => by simp at hp)
  obtain ⟨_, h5, _⟩ := h3 he
  simp only [List.nil_append] at h5
  have hne : (pfs_write_loop realloc_ok reads [] 512 0 []).data ≠ [] := by
    intro h0
    rw [h0, List.take_nil] at h5
    have h6 := congrArg List.length h5
    have h7 := (h3 he).1
    simp only [List.length_nil, List.length_map] at h6
    omega
  unfold pfs_write_file
  simp only [he, if_neg hne, if_pos hpos, h5, cells_bytes_map_some]

/-- C11. For every standard input whose total length plus 1024 does not exceed
2^31 (so that no 32-bit sum or doubling wraps), whatever the outcome of the
allocations: at every call of `fread` in `pfs_write_file` the values found
satisfy `len + 1024 <= cap`, although `cap` starts at 512 and is doubled at
most once per pass, and no read stores outside the buffer. When the loop is
left at the end of the stream, one read was made per chunk, `len` is the
total length of the chunks read and the first `len` bytes of the buffer are
their concatenation, in order. -/
theorem pfs_write_file_headroom (realloc_ok : Nat → Bool) (reads : List Fread)
    (hsize : (reads.map fun r => r.bytes.length).sum + 1024 ≤ 2 ^ 31) :
    (∀ p ∈ (pfs_write_loop realloc_ok reads [] 512 0 []).trace, p.1 + 1024 ≤ p.2) ∧
    (pfs_write_loop realloc_ok reads [] 512 0 []).exit ≠ .overrun ∧
    ((pfs_write_loop realloc_ok reads [] 512 0 []).exit = .eof →
      (pfs_write_loop realloc_ok reads [] 512 0 []).trace.length = reads_made reads ∧
      (pfs_write_loop realloc_ok reads [] 512 0 []).len = (chunks_read reads).flatten.length ∧
      (pfs_write_loop realloc_ok reads [] 512 0 []).data.take
          (pfs_write_loop realloc_ok reads [] 512 0 []).len
        = (chunks_read reads).flatten.map some) := by
  have hinit : WriteInv [] 512 0 [] := by
    unfold WriteInv
    exact ⟨rfl, rfl, by omega, fun h => by omega⟩
  obtain ⟨h1, h2, h3⟩ := pfs_write_loop_spec realloc_ok reads [] 512 0 [] [] hinit
    (by omega) (fun p hp => by simp at hp)
  refine ⟨h1, h2, fun he => ?_⟩
  obtain ⟨j1, j2, j3⟩ := h3 he
  exact ⟨by simpa using j3, by simpa using j1, by simpa using j2⟩

/-- C11, at a stream of three full chunks and a last one of five bytes: four
reads, made at `(len, cap)` = (0, 1024), (1024, 2048), (2048, 4096) and
(3072, 4096), and 3077 bytes in the buffer at the end. -/
theorem pfs_write_file_headroom_witness :
    (pfs_write_loop (fun _ => true) sample_reads [] 512 0 []).trace
      = [(0, 1024), (1024, 2048), (2048, 4096), (3072, 4096)] ∧
    (pfs_write_loop (fun _ => true) sample_reads [] 512 0 []).exit = .eof ∧
    (pfs_write_loop (fun _ => true) sample_reads [] 512 0 []).len = 3077 ∧
    (∀ p ∈ (pfs_write_loop (fun _ => true) sample_reads [] 512 0 []).trace,
      p.1 + 1024 ≤ p.2) :=
  ⟨by decide!, by decide!, by decide!,
    (pfs_write_file_headroom (fun _ => true) sample_reads
      (by simp [sample_reads, full_chunk_length])).1⟩

end Pfs
